import Mathlib

/-!
# Mindicator, coarse-grained-lock variant (`mindicator_cgl.hpp`)

A shallow embedding of `sosil_cgl_t<W, D>` and `sosil_cgl_node_t<W, D>`.

* The array `nodes[NUM_NODES]` is a `List Int` holding the `value` field of
  every node; a node pointer `&nodes[k]` is the index `k : Nat`.
* `int32_t` values are integers; where the range matters a statement carries
  the explicit predicates `IsInt32` and `Int32Values`.
* The tree-wide lock makes every operation atomic, so `arrive` and `depart`
  are functions from the array before the call to the array after it.
* The calls on the lock and the accesses to the nodes of one operation are
  listed, in program order, by `arriveTrace`, `departTrace` and `queryTrace`.
* Threads are interleaved by `stepThread`, one lock call or one loop
  iteration at a time, with the lock as explicit state.
-/

set_option autoImplicit false

namespace mindicator

/-! ## Constants -/

/-- The largest `int32_t`, the sentinel "infinity" of the tree. -/
def INT_MAX : Int := 2147483647

/-- The smallest `int32_t`. -/
def INT_MIN : Int := -2147483648

/-- Modelled from the spec: `Power<W, N>::value` of the absent `common.hpp`,
the compile-time power `W^N` (the spec gives `MAX_LEAVES = W^(D-1)`). -/
def Power (w n : Nat) : Nat := w ^ n

/-- Modelled from the spec: `GeoSum<A, R, N>::value` of the absent `common.hpp`,
the geometric sum `A + A*R + ... + A*R^(N-1)` of `N` terms (the spec gives
`NUM_NODES = 1 + W + W² + … + W^(D-1)` and `FIRST_LEAF = 1 + W + … + W^(D-2)`). -/
def GeoSum (a r : Nat) : Nat → Nat
  | 0 => 0
  | n + 1 => GeoSum a r n + a * r ^ n

/-- The constant `MAX_THREADS = Power<WAY, DEPTH - 1>::value`: the number of leaves. -/
def MAX_THREADS (W D : Nat) : Nat := Power W (D - 1)

/-- The constant `NUM_NODES = GeoSum<1, WAY, DEPTH>::value`. -/
def NUM_NODES (W D : Nat) : Nat := GeoSum 1 W D

/-- The constant `FIRST_LEAF = GeoSum<1, WAY, DEPTH - 1>::value`. -/
def FIRST_LEAF (W D : Nat) : Nat := GeoSum 1 W (D - 1)

/-! ## The node array -/

/-- Read `nodes[idx].value`. -/
def value (nodes : List Int) (idx : Nat) : Int := nodes.getD idx 0

/-- Write `nodes[idx].value = v`. -/
def setValue (nodes : List Int) (idx : Nat) (v : Int) : List Int := nodes.set idx v

/-- The constructor: every node's value is `INT_MAX`. -/
def construct (W D : Nat) : List Int := List.replicate (NUM_NODES W D) INT_MAX

/-- The leaf `getnode(index)` is `&nodes[FIRST_LEAF + index]`. -/
def getnode (W D index : Nat) : Nat := FIRST_LEAF W D + index

/-- The call `query()` returns `nodes[0].value`. -/
def query (nodes : List Int) : Int := value nodes 0

/-- The test `is_root(s)` is `nodes == s`. -/
def is_root (s : Nat) : Bool := s == 0

/-- The test `is_leaf(s)` is `FIRST_LEAF <= index && index < NUM_NODES`. -/
def is_leaf (W D s : Nat) : Bool := decide (FIRST_LEAF W D ≤ s) && decide (s < NUM_NODES W D)

/-- The node `parent(s)` is `&nodes[(index - 1) / WAY]`; the code calls it on
non-root nodes only, where `index - 1` does not go below zero. -/
def parent (W s : Nat) : Nat := (s - 1) / W

/-- The node `children(s)` is `&nodes[index * WAY + 1]`, the first child. -/
def children (W s : Nat) : Nat := s * W + 1

/-! ## arrive -/

/-- The `while` loop of `sosil_cgl_node_t::arrive`, from the node `current`. -/
def arriveLoop (W : Nat) (n : Int) (nodes : List Int) (current : Nat) : List Int :=
  if n < value nodes current then
    if is_root current = false then
      arriveLoop W n (setValue nodes current n) (parent W current)
    else
      setValue nodes current n
  else
    nodes
termination_by current
decreasing_by
  simp only [is_root, beq_eq_false_iff_ne, ne_eq] at *
  unfold parent
  exact lt_of_le_of_lt (Nat.div_le_self _ _) (Nat.sub_lt (Nat.pos_of_ne_zero (by assumption)) Nat.one_pos)

/-- The call `sosil_cgl_t::arrive(index, n)`: `getnode(index)->arrive(n)`. -/
def arrive (W D : Nat) (nodes : List Int) (index : Nat) (n : Int) : List Int :=
  arriveLoop W n nodes (getnode W D index)

/-! ## depart -/

/-- The sibling scan of `depart`: `mvc = begin->value`, then for every
`n` in `begin + 1 .. end - 1`, `if (mvc > temp) mvc = temp`, where
`begin = children(current)` and `end = begin + WAY`. -/
def scanChildren (W : Nat) (nodes : List Int) (current : Nat) : Int :=
  (List.range (W - 1)).foldl
    (fun mvc k =>
      let temp := value nodes (children W current + 1 + k)
      if mvc > temp then temp else mvc)
    (value nodes (children W current))

/-- The `while` loop of `sosil_cgl_node_t::depart`, from the node `current`
with the running minimum `mvc`. -/
def departLoop (W : Nat) (nodes : List Int) (current : Nat) (mvc : Int) : List Int :=
  if value nodes current < mvc then
    if is_root current = false then
      departLoop W (setValue nodes current mvc) (parent W current)
        (scanChildren W (setValue nodes current mvc) (parent W current))
    else
      setValue nodes current mvc
  else
    nodes
termination_by current
decreasing_by
  simp only [is_root, beq_eq_false_iff_ne, ne_eq] at *
  unfold parent
  exact lt_of_le_of_lt (Nat.div_le_self _ _) (Nat.sub_lt (Nat.pos_of_ne_zero (by assumption)) Nat.one_pos)

/-- The call `sosil_cgl_t::depart(index)`: `getnode(index)->depart()`, which starts
the loop with `mvc = INT_MAX`. -/
def depart (W D : Nat) (nodes : List Int) (index : Nat) : List Int :=
  departLoop W nodes (getnode W D index) INT_MAX


/-! ## The tree invariant -/

/-- The integer `m` is the minimum of the values of the `W` direct children
`children(p) + 0 .. children(p) + W - 1` of the node `p`. -/
def MinOfChildrenIs (W : Nat) (nodes : List Int) (p : Nat) (m : Int) : Prop :=
  (∀ k, k < W → m ≤ value nodes (children W p + k)) ∧
    (∃ k, k < W ∧ m = value nodes (children W p + k))

instance (W : Nat) (nodes : List Int) (p : Nat) (m : Int) :
    Decidable (MinOfChildrenIs W nodes p m) := by
  unfold MinOfChildrenIs; infer_instance

/-- The tree invariant: the value of every internal node (index below
`FIRST_LEAF`) equals the minimum of the values of its `W` direct children. -/
def TreeInv (W D : Nat) (nodes : List Int) : Prop :=
  ∀ p, p < FIRST_LEAF W D → MinOfChildrenIs W nodes p (value nodes p)

instance (W D : Nat) (nodes : List Int) : Decidable (TreeInv W D nodes) := by
  unfold TreeInv; infer_instance

/-- The integer `n` is an `int32_t`. -/
def IsInt32 (n : Int) : Prop := INT_MIN ≤ n ∧ n ≤ INT_MAX

instance (n : Int) : Decidable (IsInt32 n) := by
  unfold IsInt32; infer_instance

/-- Every stored value is an `int32_t`. -/
def Int32Values (nodes : List Int) : Prop := ∀ v, v ∈ nodes → IsInt32 v

instance (nodes : List Int) : Decidable (Int32Values nodes) := by
  unfold Int32Values; infer_instance

/-- A tree state of `sosil_cgl_t<W, D>`: an array of `NUM_NODES` nodes whose
values are `int32_t`. -/
def IsTree (W D : Nat) (nodes : List Int) : Prop :=
  nodes.length = NUM_NODES W D ∧ Int32Values nodes

instance (W D : Nat) (nodes : List Int) : Decidable (IsTree W D nodes) := by
  unfold IsTree; infer_instance

/-! ## Subtrees and reachable states -/

/-- The relation `InSubtree W x y`: the node `y` lies in the subtree rooted at `x`, that is
`y` is `x` or one of the `W` children of a node of that subtree. -/
inductive InSubtree (W : Nat) (x : Nat) : Nat → Prop
  | root : InSubtree W x x
  | child {y k : Nat} : InSubtree W x y → k < W → InSubtree W x (children W y + k)

/-- The value of the node `x` is the minimum of the values of the leaves of
the subtree rooted at `x`. -/
def IsSubtreeMin (W D : Nat) (nodes : List Int) (x : Nat) : Prop :=
  (∀ l, is_leaf W D l = true → InSubtree W x l → value nodes x ≤ value nodes l) ∧
    (∃ l, is_leaf W D l = true ∧ InSubtree W x l ∧ value nodes x = value nodes l)

/-- The states reachable from the constructed tree by `arrive` and `depart`
calls with valid leaf indices and `int32_t` timestamps. -/
inductive Reachable (W D : Nat) : List Int → Prop
  | init : Reachable W D (construct W D)
  | arrive {nodes : List Int} (i : Nat) (n : Int) :
      Reachable W D nodes → i < MAX_THREADS W D → IsInt32 n →
      Reachable W D (arrive W D nodes i n)
  | depart {nodes : List Int} (i : Nat) :
      Reachable W D nodes → i < MAX_THREADS W D → Reachable W D (depart W D nodes i)

/-- One call on the tree. -/
inductive Op
  | arrive (index : Nat) (n : Int)
  | depart (index : Nat)
  deriving DecidableEq

/-- The array after the call `op`. -/
def applyOp (W D : Nat) (nodes : List Int) : Op → List Int
  | Op.arrive i n => arrive W D nodes i n
  | Op.depart i => depart W D nodes i

/-- The array after the calls `ops`, in order. -/
def run (W D : Nat) (nodes : List Int) (ops : List Op) : List Int :=
  ops.foldl (applyOp W D) nodes

/-- The bookkeeping of the active leaves: `act i` is the timestamp the leaf
`i` has published and not retracted, if any. -/
def publish (act : Nat → Option Int) : Op → Nat → Option Int
  | Op.arrive i n => fun j => if j = i then some n else act j
  | Op.depart i => fun j => if j = i then none else act j

/-- The active leaves after the calls `ops`, none being active before. -/
def published (ops : List Op) : Nat → Option Int :=
  ops.foldl publish (fun _ => none)

/-- The calls `ops` are properly matched from the bookkeeping `act`: every
`arrive(i, n)` has a valid `i`, a timestamp `n < INT_MAX` and a leaf that is
not active; every `depart(i)` has a valid `i` and a leaf that is active. -/
def properlyMatched (W D : Nat) (act : Nat → Option Int) : List Op → Bool
  | [] => true
  | Op.arrive i n :: ops =>
      decide (i < MAX_THREADS W D) && decide (n < INT_MAX) && decide (act i = none) &&
        properlyMatched W D (publish act (Op.arrive i n)) ops
  | Op.depart i :: ops =>
      decide (i < MAX_THREADS W D) && decide (act i ≠ none) &&
        properlyMatched W D (publish act (Op.depart i)) ops

/-! ## Integer leaf indices -/

/-- The leaf `getnode(index)` for an `int index` of either sign: the position
`FIRST_LEAF + index` of `&nodes[FIRST_LEAF + index]`, as an integer. -/
def getnodeInt (W D : Nat) (index : Int) : Int := (FIRST_LEAF W D : Int) + index

/-- The test `is_leaf(s)` on an integer position `index = s - nodes`:
`FIRST_LEAF <= index && index < NUM_NODES`. -/
def is_leafInt (W D : Nat) (s : Int) : Bool :=
  decide ((FIRST_LEAF W D : Int) ≤ s) && decide (s < (NUM_NODES W D : Int))

/-! ## Accesses to the lock and to the nodes -/

/-- One access of an operation: `tatas_acquire(&tree->lock)`,
`tatas_release(&tree->lock)`, a read of `nodes[idx].value` or a write of it. -/
inductive Event
  | acquire
  | release
  | read (idx : Nat)
  | write (idx : Nat)
  deriving DecidableEq

/-- The accesses of the `while` loop of `arrive`, in program order: the loop
test reads `current->value`, the body writes it. -/
def arriveLoopTrace (W : Nat) (n : Int) (nodes : List Int) (current : Nat) : List Event :=
  if n < value nodes current then
    if is_root current = false then
      Event.read current :: Event.write current ::
        arriveLoopTrace W n (setValue nodes current n) (parent W current)
    else
      [Event.read current, Event.write current]
  else
    [Event.read current]
termination_by current
decreasing_by
  simp only [is_root, beq_eq_false_iff_ne, ne_eq] at *
  unfold parent
  exact lt_of_le_of_lt (Nat.div_le_self _ _) (Nat.sub_lt (Nat.pos_of_ne_zero (by assumption)) Nat.one_pos)

/-- The accesses of `sosil_cgl_node_t::arrive`: the lock is acquired, the
loop runs, the lock is released. -/
def arriveTrace (W D : Nat) (nodes : List Int) (index : Nat) (n : Int) : List Event :=
  Event.acquire :: (arriveLoopTrace W n nodes (getnode W D index) ++ [Event.release])

/-- The accesses of the sibling scan of `depart`: `begin->value`, then
`n->value` for `n` from `begin + 1` to `end - 1`. -/
def scanChildrenTrace (W : Nat) (current : Nat) : List Event :=
  Event.read (children W current) ::
    (List.range (W - 1)).map (fun k => Event.read (children W current + 1 + k))

/-- The accesses of the `while` loop of `depart`, in program order: the loop
test reads `current->value`, the body writes it and scans the children of the
parent. -/
def departLoopTrace (W : Nat) (nodes : List Int) (current : Nat) (mvc : Int) : List Event :=
  if value nodes current < mvc then
    if is_root current = false then
      Event.read current :: Event.write current ::
        (scanChildrenTrace W (parent W current) ++
          departLoopTrace W (setValue nodes current mvc) (parent W current)
            (scanChildren W (setValue nodes current mvc) (parent W current)))
    else
      [Event.read current, Event.write current]
  else
    [Event.read current]
termination_by current
decreasing_by
  simp only [is_root, beq_eq_false_iff_ne, ne_eq] at *
  unfold parent
  exact lt_of_le_of_lt (Nat.div_le_self _ _) (Nat.sub_lt (Nat.pos_of_ne_zero (by assumption)) Nat.one_pos)

/-- The accesses of `sosil_cgl_node_t::depart`. -/
def departTrace (W D : Nat) (nodes : List Int) (index : Nat) : List Event :=
  Event.acquire :: (departLoopTrace W nodes (getnode W D index) INT_MAX ++ [Event.release])

/-- The accesses of `sosil_cgl_t::query`: `return nodes[0].value`, with no
call on the lock. -/
def queryTrace : List Event := [Event.read 0]

/-- Every read and write of the trace happens while the lock is held, `held`
telling whether it is held before the trace. -/
def insideLock : Bool → List Event → Bool
  | _, [] => true
  | _, Event.acquire :: tr => insideLock true tr
  | _, Event.release :: tr => insideLock false tr
  | held, Event.read _ :: tr => held && insideLock held tr
  | held, Event.write _ :: tr => held && insideLock held tr

/-- The number of runs of the loop body: each run makes exactly one write,
`current->value = ...`. -/
def bodyRuns : List Event → Nat
  | [] => 0
  | Event.write _ :: tr => bodyRuns tr + 1
  | _ :: tr => bodyRuns tr

/-! ## The flat model: one value per leaf -/

/-- The leaf index the call is made on. -/
def opIndex : Op → Nat
  | Op.arrive i _ => i
  | Op.depart i => i

/-- The call has a valid leaf index, and an `int32_t` timestamp if it is an
`arrive`. -/
def validOp (W D : Nat) : Op → Bool
  | Op.arrive i n => decide (i < MAX_THREADS W D) && decide (IsInt32 n)
  | Op.depart i => decide (i < MAX_THREADS W D)

/-- The flat model, initially: an array of `MAX_THREADS` values, all
`INT_MAX`. -/
def flatInit (W D : Nat) : List Int := List.replicate (MAX_THREADS W D) INT_MAX

/-- The flat model, one call: `arrive(i, n)` sets `a[i] := min(a[i], n)` and
`depart(i)` sets `a[i] := INT_MAX`. -/
def flatApply (a : List Int) : Op → List Int
  | Op.arrive i n => setValue a i (min (value a i) n)
  | Op.depart i => setValue a i INT_MAX

/-- The flat model after the calls `ops`, in order. -/
def flatRun (a : List Int) (ops : List Op) : List Int := ops.foldl flatApply a

/-! ## Threads interleaved under the tree-wide lock -/

/-- Where a thread stands in its program: between two calls (`idle`, with the
calls it has still to make), at the loop test of `arrive` or of `depart` with
the local variables `current`, `n` and `mvc`, or past the loop, about to call
`tatas_release`. -/
inductive Thread
  | idle (todo : List Op)
  | arriving (current : Nat) (n : Int) (todo : List Op)
  | departing (current : Nat) (mvc : Int) (todo : List Op)
  | releasing (todo : List Op)
  deriving DecidableEq

/-- The shared memory and the threads: the node array, the tree lock, the
state of every thread, and the history of the calls that have acquired the
lock, each with the thread that made it, in the order of acquisition. -/
structure Machine where
  nodes : List Int
  lock : Bool
  threads : List Thread
  acquired : List (Nat × Op)

/-- The thread state right after `tatas_acquire` in the call `op`:
`current = this`, and `mvc = INT_MAX` in `depart`. -/
def enter (W D : Nat) (todo : List Op) : Op → Thread
  | Op.arrive i n => Thread.arriving (getnode W D i) n todo
  | Op.depart i => Thread.departing (getnode W D i) INT_MAX todo

/-- Modelled from the spec: the spin lock of the absent `locks.hpp`, "a
mutual-exclusion lock offering `acquire()` (blocks until held) and
`release()`". One step of the thread `t`: an idle thread with a call to make
takes the lock if it is free and spins otherwise; a thread in a loop runs one
iteration of `arrive` or `depart` as written in the source; a thread past its
loop releases the lock. -/
def stepThread (W D : Nat) (s : Machine) (t : Nat) : Machine :=
  match s.threads[t]? with
  | none => s
  | some (Thread.idle []) => s
  | some (Thread.idle (op :: todo)) =>
    if s.lock then s
    else Machine.mk s.nodes true (s.threads.set t (enter W D todo op)) (s.acquired ++ [(t, op)])
  | some (Thread.arriving current n todo) =>
    if n < value s.nodes current then
      if is_root current = false then
        Machine.mk (setValue s.nodes current n) s.lock
          (s.threads.set t (Thread.arriving (parent W current) n todo)) s.acquired
      else
        Machine.mk (setValue s.nodes current n) s.lock
          (s.threads.set t (Thread.releasing todo)) s.acquired
    else
      Machine.mk s.nodes s.lock (s.threads.set t (Thread.releasing todo)) s.acquired
  | some (Thread.departing current mvc todo) =>
    if value s.nodes current < mvc then
      if is_root current = false then
        Machine.mk (setValue s.nodes current mvc) s.lock
          (s.threads.set t (Thread.departing (parent W current)
            (scanChildren W (setValue s.nodes current mvc) (parent W current)) todo))
          s.acquired
      else
        Machine.mk (setValue s.nodes current mvc) s.lock
          (s.threads.set t (Thread.releasing todo)) s.acquired
    else
      Machine.mk s.nodes s.lock (s.threads.set t (Thread.releasing todo)) s.acquired
  | some (Thread.releasing todo) =>
    Machine.mk s.nodes false (s.threads.set t (Thread.idle todo)) s.acquired

/-- The machine before any step: the lock is free and the thread `t` has the
calls `programs[t]` to make. -/
def initMachine (nodes : List Int) (programs : List (List Op)) : Machine :=
  Machine.mk nodes false (programs.map Thread.idle) []

/-- The machine after the interleaving `sched`, which names the thread that
takes each step. -/
def interleave (W D : Nat) (s : Machine) (sched : List Nat) : Machine :=
  sched.foldl (stepThread W D) s

/-- The thread is between two calls. -/
def isIdle : Thread → Bool
  | Thread.idle _ => true
  | _ => false

/-- The calls the thread has still to make. -/
def remaining : Thread → List Op
  | Thread.idle todo => todo
  | Thread.arriving _ _ todo => todo
  | Thread.departing _ _ todo => todo
  | Thread.releasing todo => todo

/-- Every thread has made all its calls. -/
def allDone (s : Machine) : Bool := s.threads.all (fun th => decide (th = Thread.idle []))

/-- The calls of the thread `t` in the history, in order. -/
def callsOf (t : Nat) (acquired : List (Nat × Op)) : List Op :=
  (acquired.filter (fun e => e.1 == t)).map Prod.snd

/-- The array once the thread has finished the loop it is in. -/
def complete (W : Nat) (nodes : List Int) : Thread → List Int
  | Thread.idle _ => nodes
  | Thread.arriving current n _ => arriveLoop W n nodes current
  | Thread.departing current mvc _ => departLoop W nodes current mvc
  | Thread.releasing _ => nodes

/-- The invariant of the interleavings from `initMachine nodes0 programs`.
Every thread has made a prefix of its program, in order, and has the rest to
make; while the lock is free every thread is idle and the array is the result
of the history run sequentially; while the lock is held exactly one thread is
inside a call, and the array will be that result once its loop has finished. -/
def LockInv (W D : Nat) (nodes0 : List Int) (programs : List (List Op)) (s : Machine) : Prop :=
  s.threads.length = programs.length ∧
    (∀ (t : Nat) (th : Thread) (p : List Op), s.threads[t]? = some th → programs[t]? = some p →
      callsOf t s.acquired ++ remaining th = p) ∧
    (∀ e, e ∈ s.acquired → e.1 < programs.length) ∧
    (s.lock = false →
      (∀ (t : Nat) (th : Thread), s.threads[t]? = some th → isIdle th = true) ∧
        s.nodes = run W D nodes0 (s.acquired.map Prod.snd)) ∧
    (s.lock = true →
      ∃ (h : Nat) (th : Thread), s.threads[h]? = some th ∧ isIdle th = false ∧
        (∀ (t : Nat) (th2 : Thread), t ≠ h → s.threads[t]? = some th2 → isIdle th2 = true) ∧
        complete W s.nodes th = run W D nodes0 (s.acquired.map Prod.snd))

/-! # Theorems -/

/-! ## Reading and writing the array -/

theorem length_setValue (nodes : List Int) (i : Nat) (v : Int) :
    (setValue nodes i v).length = nodes.length := by
  simp [setValue]

theorem value_setValue_self {nodes : List Int} {i : Nat} (v : Int) (h : i < nodes.length) :
    value (setValue nodes i v) i = v := by
  simp [value, setValue, List.getD_eq_getElem?_getD, List.getElem?_set, h]

theorem value_setValue_ne {nodes : List Int} {i j : Nat} (v : Int) (h : i ≠ j) :
    value (setValue nodes i v) j = value nodes j := by
  simp [value, setValue, List.getD_eq_getElem?_getD, List.getElem?_set_ne h]

/-! ## Shape arithmetic -/

theorem GeoSum_one_succ (W n : Nat) : GeoSum 1 W (n + 1) = 1 + W * GeoSum 1 W n := by
  induction n with
  | zero => simp [GeoSum]
  | succ k ih =>
    have h1 : GeoSum 1 W (k + 2) = GeoSum 1 W (k + 1) + 1 * W ^ (k + 1) := rfl
    have h2 : GeoSum 1 W (k + 1) = GeoSum 1 W k + 1 * W ^ k := rfl
    rw [h1]; nth_rewrite 1 [ih]; rw [h2]; ring

theorem NUM_NODES_eq_horner {W D : Nat} (hD : 1 ≤ D) :
    NUM_NODES W D = 1 + W * FIRST_LEAF W D := by
  obtain ⟨d, rfl⟩ : ∃ d, D = d + 1 := ⟨D - 1, by omega⟩
  simp [NUM_NODES, FIRST_LEAF, GeoSum_one_succ]

theorem NUM_NODES_eq_add {W D : Nat} (hD : 1 ≤ D) :
    NUM_NODES W D = FIRST_LEAF W D + MAX_THREADS W D := by
  obtain ⟨d, rfl⟩ : ∃ d, D = d + 1 := ⟨D - 1, by omega⟩
  simp [NUM_NODES, FIRST_LEAF, MAX_THREADS, Power, GeoSum]

theorem getnode_lt_NUM_NODES {W D i : Nat} (hD : 1 ≤ D) (hi : i < MAX_THREADS W D) :
    getnode W D i < NUM_NODES W D := by
  rw [NUM_NODES_eq_add hD]; unfold getnode; omega

theorem FIRST_LEAF_le_getnode (W D i : Nat) : FIRST_LEAF W D ≤ getnode W D i := by
  unfold getnode; omega

theorem parent_lt_self {W c : Nat} (h : 0 < c) : parent W c < c := by
  unfold parent
  exact lt_of_le_of_lt (Nat.div_le_self _ _) (by omega)

theorem parent_children {W : Nat} (hW : 1 ≤ W) (p : Nat) {k : Nat} (hk : k < W) :
    parent W (children W p + k) = p := by
  unfold parent children
  have h : p * W + 1 + k - 1 = k + W * p := by
    rw [Nat.mul_comm]; omega
  rw [h, Nat.add_mul_div_left _ _ (by omega), Nat.div_eq_of_lt hk]; simp

theorem child_of_parent {W c : Nat} (hW : 1 ≤ W) (h : 0 < c) :
    ∃ k, k < W ∧ c = children W (parent W c) + k := by
  refine ⟨(c - 1) % W, Nat.mod_lt _ (by omega), ?_⟩
  unfold parent children
  have := Nat.div_add_mod (c - 1) W
  rw [Nat.mul_comm] at this
  omega

theorem self_lt_children (W p k : Nat) (hW : 1 ≤ W) : p < children W p + k := by
  unfold children
  have : p * 1 ≤ p * W := Nat.mul_le_mul_left p hW
  omega

theorem parent_lt_FIRST_LEAF {W D c : Nat} (hW : 1 ≤ W) (hD : 1 ≤ D) (h0 : 0 < c)
    (hc : c < NUM_NODES W D) : parent W c < FIRST_LEAF W D := by
  rw [NUM_NODES_eq_horner hD] at hc
  unfold parent
  rw [Nat.div_lt_iff_lt_mul (by omega)]
  rw [Nat.mul_comm]; omega

theorem child_lt_NUM_NODES {W D p k : Nat} (hD : 1 ≤ D) (hp : p < FIRST_LEAF W D)
    (hk : k < W) : children W p + k < NUM_NODES W D := by
  rw [NUM_NODES_eq_horner hD]
  unfold children
  have : W * (p + 1) ≤ W * FIRST_LEAF W D := Nat.mul_le_mul_left W hp
  rw [Nat.mul_add, Nat.mul_comm W p] at this
  omega

/-! ## The sibling scan computes the minimum of the children -/

theorem scan_fold_spec (nodes : List Int) (b m : Nat) :
    (∀ k, k ≤ m →
        (List.range m).foldl
          (fun mvc k =>
            let temp := value nodes (b + 1 + k)
            if mvc > temp then temp else mvc)
          (value nodes b) ≤ value nodes (b + k)) ∧
      (∃ k, k ≤ m ∧
        (List.range m).foldl
          (fun mvc k =>
            let temp := value nodes (b + 1 + k)
            if mvc > temp then temp else mvc)
          (value nodes b) = value nodes (b + k)) := by
  induction m with
  | zero =>
    refine ⟨?_, 0, le_refl _, by simp⟩
    intro k hk
    have : k = 0 := by omega
    subst this; simp
  | succ m ih =>
    obtain ⟨hle, j, hj, hjeq⟩ := ih
    rw [List.range_succ, List.foldl_append]
    simp only [List.foldl_cons, List.foldl_nil]
    have hidx : b + 1 + m = b + (m + 1) := by omega
    rw [hidx]
    split
    · rename_i hgt
      refine ⟨?_, m + 1, le_refl _, rfl⟩
      intro k hk
      by_cases hkm : k ≤ m
      · exact le_trans (le_of_lt hgt) (hle k hkm)
      · have : k = m + 1 := by omega
        subst this; exact le_refl _
    · rename_i hngt
      refine ⟨?_, j, by omega, hjeq⟩
      intro k hk
      by_cases hkm : k ≤ m
      · exact hle k hkm
      · have : k = m + 1 := by omega
        subst this; exact not_lt.mp hngt

theorem scanChildren_spec {W : Nat} (hW : 1 ≤ W) (nodes : List Int) (p : Nat) :
    MinOfChildrenIs W nodes p (scanChildren W nodes p) := by
  obtain ⟨hle, j, hj, hjeq⟩ := scan_fold_spec nodes (children W p) (W - 1)
  exact ⟨fun k hk => hle k (by omega), j, by omega, hjeq⟩

theorem MinOfChildrenIs_unique {W : Nat} {nodes : List Int} {p : Nat} {a b : Int}
    (ha : MinOfChildrenIs W nodes p a) (hb : MinOfChildrenIs W nodes p b) : a = b := by
  obtain ⟨ha1, ka, hka, hka2⟩ := ha
  obtain ⟨hb1, kb, hkb, hkb2⟩ := hb
  have h1 := ha1 kb hkb
  have h2 := hb1 ka hka
  omega

/-- The minimum of the children of `p` does not depend on the values stored
outside the children of `p`. -/
theorem MinOfChildrenIs_congr {W : Nat} {nodes nodes' : List Int} {p : Nat} {m : Int}
    (h : ∀ k, k < W → value nodes' (children W p + k) = value nodes (children W p + k))
    (hm : MinOfChildrenIs W nodes p m) : MinOfChildrenIs W nodes' p m := by
  obtain ⟨h1, k, hk, hk2⟩ := hm
  exact ⟨fun j hj => by rw [h j hj]; exact h1 j hj, k, hk, by rw [h k hk]; exact hk2⟩

/-- Lowering one child of `g` to `n` lowers the minimum of the children of
`g` to the smaller of the old minimum and `n`. -/
theorem MinOfChildrenIs_lower {W : Nat} (hW : 1 ≤ W) {nodes : List Int} {c : Nat} {n m : Int}
    (h0 : 0 < c) (hc : c < nodes.length) (hn : n < value nodes c)
    (hm : MinOfChildrenIs W nodes (parent W c) m) :
    MinOfChildrenIs W (setValue nodes c n) (parent W c) (min m n) := by
  obtain ⟨k0, hk0, hck⟩ := child_of_parent hW h0
  obtain ⟨h1, k1, hk1, hk1eq⟩ := hm
  have hval : ∀ k, k < W → value (setValue nodes c n) (children W (parent W c) + k) =
      if k = k0 then n else value nodes (children W (parent W c) + k) := by
    intro k hk
    by_cases hkk : k = k0
    · subst hkk; rw [← hck, if_pos rfl]; exact value_setValue_self n hc
    · rw [if_neg hkk]; apply value_setValue_ne; omega
  constructor
  · intro k hk
    rw [hval k hk]
    split
    · exact min_le_right _ _
    · exact le_trans (min_le_left _ _) (h1 k hk)
  · by_cases hmn : n ≤ m
    · exact ⟨k0, hk0, by rw [hval k0 hk0, if_pos rfl]; exact min_eq_right hmn⟩
    · have hk10 : k1 ≠ k0 := by
        intro h; subst h; rw [← hck] at hk1eq; omega
      exact ⟨k1, hk1, by rw [hval k1 hk1, if_neg hk10, ← hk1eq]; exact min_eq_left (by omega)⟩

/-! ## arrive preserves the tree invariant -/

theorem arriveLoop_TreeInv {W D : Nat} (hW : 1 ≤ W) (hD : 1 ≤ D) (n : Int) (current : Nat) :
    ∀ nodes : List Int, nodes.length = NUM_NODES W D → current < NUM_NODES W D →
      (∀ p, p < FIRST_LEAF W D → p ≠ current → MinOfChildrenIs W nodes p (value nodes p)) →
      (current < FIRST_LEAF W D →
        MinOfChildrenIs W nodes current (min (value nodes current) n)) →
      TreeInv W D (arriveLoop W n nodes current) := by
  induction current using Nat.strong_induction_on with
  | _ current ih =>
    intro nodes hlen hcur hother hself
    have hc : current < nodes.length := by omega
    rw [arriveLoop]
    by_cases hlt : n < value nodes current
    · rw [if_pos hlt]
      -- the nodes whose children do not contain `current` keep their minimum
      have hkeep : ∀ p, p ≠ current → (p ≠ parent W current ∨ current = 0) →
          MinOfChildrenIs W nodes p (value nodes p) →
          MinOfChildrenIs W (setValue nodes current n) p (value (setValue nodes current n) p) := by
        intro p hp hpar hmin
        rw [value_setValue_ne n (Ne.symm hp)]
        refine MinOfChildrenIs_congr (fun k hk => value_setValue_ne n ?_) hmin
        intro heq
        rcases hpar with hpar | hzero
        · exact hpar (by rw [heq]; exact (parent_children hW p hk).symm)
        · have := self_lt_children W p k hW; omega
      have hselfnew : current < FIRST_LEAF W D →
          MinOfChildrenIs W (setValue nodes current n) current
            (value (setValue nodes current n) current) := by
        intro hint
        rw [value_setValue_self n hc]
        have h := hself hint
        rw [min_eq_right (le_of_lt hlt)] at h
        refine MinOfChildrenIs_congr (fun k hk => value_setValue_ne n ?_) h
        have := self_lt_children W current k hW; omega
      by_cases hroot : is_root current = false
      · rw [if_pos hroot]
        have h0 : 0 < current := by
          simp only [is_root, beq_eq_false_iff_ne, ne_eq] at hroot; omega
        have hpar := parent_lt_self (W := W) h0
        have hparFL := parent_lt_FIRST_LEAF hW hD h0 hcur
        apply ih (parent W current) hpar _ (by rw [length_setValue]; exact hlen) (by omega)
        · intro p hp hne
          by_cases hpc : p = current
          · subst hpc; exact hselfnew hp
          · exact hkeep p hpc (Or.inl hne) (hother p hp hpc)
        · intro _
          rw [value_setValue_ne n (by omega)]
          exact MinOfChildrenIs_lower hW h0 hc hlt (hother _ hparFL (by omega))
      · rw [if_neg hroot]
        have h0 : current = 0 := by
          simpa [is_root] using hroot
        intro p hp
        by_cases hpc : p = current
        · subst hpc; exact hselfnew hp
        · exact hkeep p hpc (Or.inr h0) (hother p hp hpc)
    · rw [if_neg hlt]
      intro p hp
      by_cases hpc : p = current
      · subst hpc
        have h := hself hp
        rwa [min_eq_left (not_lt.mp hlt)] at h
      · exact hother p hp hpc

theorem arrive_TreeInv {W D : Nat} (hW : 1 ≤ W) (hD : 1 ≤ D) {nodes : List Int}
    (hlen : nodes.length = NUM_NODES W D) (hinv : TreeInv W D nodes) {i : Nat}
    (hi : i < MAX_THREADS W D) (n : Int) : TreeInv W D (arrive W D nodes i n) := by
  unfold arrive
  apply arriveLoop_TreeInv hW hD n _ nodes hlen (getnode_lt_NUM_NODES hD hi)
  · intro p hp _; exact hinv p hp
  · intro h; have := FIRST_LEAF_le_getnode W D i; omega

/-! ## depart preserves the tree invariant -/

/-- Writing a node that is neither `p` nor a child of `p` keeps `p` equal to
the minimum of its children. -/
theorem MinOfChildrenIs_setValue_other {W : Nat} {nodes : List Int} {p c : Nat} (v : Int)
    (hpc : p ≠ c) (hch : ∀ k, k < W → c ≠ children W p + k)
    (hmin : MinOfChildrenIs W nodes p (value nodes p)) :
    MinOfChildrenIs W (setValue nodes c v) p (value (setValue nodes c v) p) := by
  rw [value_setValue_ne v (Ne.symm hpc)]
  exact MinOfChildrenIs_congr (fun k hk => value_setValue_ne v (hch k hk)) hmin

theorem departLoop_TreeInv {W D : Nat} (hW : 1 ≤ W) (hD : 1 ≤ D) (current : Nat) :
    ∀ (nodes : List Int) (mvc : Int), nodes.length = NUM_NODES W D → current < NUM_NODES W D →
      (∀ p, p < FIRST_LEAF W D → p ≠ current → MinOfChildrenIs W nodes p (value nodes p)) →
      (current < FIRST_LEAF W D →
        MinOfChildrenIs W nodes current mvc ∧ value nodes current ≤ mvc) →
      TreeInv W D (departLoop W nodes current mvc) := by
  induction current using Nat.strong_induction_on with
  | _ current ih =>
    intro nodes mvc hlen hcur hother hself
    have hc : current < nodes.length := by omega
    rw [departLoop]
    by_cases hlt : value nodes current < mvc
    · rw [if_pos hlt]
      have hselfnew : current < FIRST_LEAF W D →
          MinOfChildrenIs W (setValue nodes current mvc) current
            (value (setValue nodes current mvc) current) := by
        intro hint
        rw [value_setValue_self mvc hc]
        refine MinOfChildrenIs_congr (fun k hk => value_setValue_ne mvc ?_) (hself hint).1
        have := self_lt_children W current k hW; omega
      by_cases hroot : is_root current = false
      · rw [if_pos hroot]
        have h0 : 0 < current := by
          simp only [is_root, beq_eq_false_iff_ne, ne_eq] at hroot; omega
        have hpar := parent_lt_self (W := W) h0
        have hparFL := parent_lt_FIRST_LEAF hW hD h0 hcur
        apply ih (parent W current) hpar _ _ (by rw [length_setValue]; exact hlen) (by omega)
        · intro p hp hne
          by_cases hpc : p = current
          · subst hpc; exact hselfnew hp
          · refine MinOfChildrenIs_setValue_other mvc hpc (fun k hk heq => hne ?_)
              (hother p hp hpc)
            rw [heq]; exact (parent_children hW p hk).symm
        · intro _
          have hscan := scanChildren_spec hW (setValue nodes current mvc) (parent W current)
          refine ⟨hscan, ?_⟩
          obtain ⟨_, k, hk, hkeq⟩ := hscan
          rw [hkeq, value_setValue_ne mvc (by omega)]
          have hold := (hother _ hparFL (by omega)).1 k hk
          by_cases hck : current = children W (parent W current) + k
          · rw [← hck, value_setValue_self mvc hc]
            rw [← hck] at hold; omega
          · rw [value_setValue_ne mvc hck]; exact hold
      · rw [if_neg hroot]
        have h0 : current = 0 := by
          simpa [is_root] using hroot
        intro p hp
        by_cases hpc : p = current
        · subst hpc; exact hselfnew hp
        · refine MinOfChildrenIs_setValue_other mvc hpc (fun k hk heq => ?_) (hother p hp hpc)
          have := self_lt_children W p k hW; omega
    · rw [if_neg hlt]
      intro p hp
      by_cases hpc : p = current
      · subst hpc
        obtain ⟨h1, h2⟩ := hself hp
        have : value nodes p = mvc := by omega
        rw [this]; exact h1
      · exact hother p hp hpc

theorem depart_TreeInv {W D : Nat} (hW : 1 ≤ W) (hD : 1 ≤ D) {nodes : List Int}
    (hlen : nodes.length = NUM_NODES W D) (hinv : TreeInv W D nodes) {i : Nat}
    (hi : i < MAX_THREADS W D) : TreeInv W D (depart W D nodes i) := by
  unfold depart
  apply departLoop_TreeInv hW hD _ nodes INT_MAX hlen (getnode_lt_NUM_NODES hD hi)
  · intro p hp _; exact hinv p hp
  · intro h; have := FIRST_LEAF_le_getnode W D i; omega

/-! ## Shape of the array and range of the values -/

theorem length_arriveLoop (W : Nat) (n : Int) (current : Nat) :
    ∀ nodes : List Int, (arriveLoop W n nodes current).length = nodes.length := by
  induction current using Nat.strong_induction_on with
  | _ current ih =>
    intro nodes
    rw [arriveLoop]
    split
    · split
      · rename_i hroot
        have h0 : 0 < current := by
          simp only [is_root, beq_eq_false_iff_ne, ne_eq] at hroot; omega
        rw [ih _ (parent_lt_self h0), length_setValue]
      · exact length_setValue _ _ _
    · rfl

theorem length_departLoop (W : Nat) (current : Nat) :
    ∀ (nodes : List Int) (mvc : Int), (departLoop W nodes current mvc).length = nodes.length := by
  induction current using Nat.strong_induction_on with
  | _ current ih =>
    intro nodes mvc
    rw [departLoop]
    split
    · split
      · rename_i hroot
        have h0 : 0 < current := by
          simp only [is_root, beq_eq_false_iff_ne, ne_eq] at hroot; omega
        rw [ih _ (parent_lt_self h0), length_setValue]
      · exact length_setValue _ _ _
    · rfl

theorem IsInt32_zero : IsInt32 0 := by
  unfold IsInt32 INT_MIN INT_MAX; omega

theorem IsInt32_INT_MAX : IsInt32 INT_MAX := by
  unfold IsInt32 INT_MIN INT_MAX; omega

theorem IsInt32_value {nodes : List Int} (h : Int32Values nodes) (idx : Nat) :
    IsInt32 (value nodes idx) := by
  unfold value
  by_cases hi : idx < nodes.length
  · rw [List.getD_eq_getElem _ _ hi]; exact h _ (List.getElem_mem hi)
  · rw [List.getD_eq_default _ _ (by omega)]; exact IsInt32_zero

theorem Int32Values_setValue {nodes : List Int} (h : Int32Values nodes) (idx : Nat) {v : Int}
    (hv : IsInt32 v) : Int32Values (setValue nodes idx v) := by
  intro x hx
  rcases List.mem_or_eq_of_mem_set hx with hx | hx
  · exact h x hx
  · rw [hx]; exact hv

theorem Int32Values_arriveLoop (W : Nat) {n : Int} (hn : IsInt32 n) (current : Nat) :
    ∀ nodes : List Int, Int32Values nodes → Int32Values (arriveLoop W n nodes current) := by
  induction current using Nat.strong_induction_on with
  | _ current ih =>
    intro nodes h
    rw [arriveLoop]
    split
    · split
      · rename_i hroot
        have h0 : 0 < current := by
          simp only [is_root, beq_eq_false_iff_ne, ne_eq] at hroot; omega
        exact ih _ (parent_lt_self h0) _ (Int32Values_setValue h _ hn)
      · exact Int32Values_setValue h _ hn
    · exact h

theorem IsInt32_scanChildren {W : Nat} (hW : 1 ≤ W) {nodes : List Int} (h : Int32Values nodes)
    (p : Nat) : IsInt32 (scanChildren W nodes p) := by
  obtain ⟨_, k, _, hk⟩ := scanChildren_spec hW nodes p
  rw [hk]; exact IsInt32_value h _

theorem Int32Values_departLoop {W : Nat} (hW : 1 ≤ W) (current : Nat) :
    ∀ (nodes : List Int) (mvc : Int), Int32Values nodes → IsInt32 mvc →
      Int32Values (departLoop W nodes current mvc) := by
  induction current using Nat.strong_induction_on with
  | _ current ih =>
    intro nodes mvc h hm
    rw [departLoop]
    split
    · split
      · rename_i hroot
        have h0 : 0 < current := by
          simp only [is_root, beq_eq_false_iff_ne, ne_eq] at hroot; omega
        exact ih _ (parent_lt_self h0) _ _ (Int32Values_setValue h _ hm)
          (IsInt32_scanChildren hW (Int32Values_setValue h _ hm) _)
      · exact Int32Values_setValue h _ hm
    · exact h

/-! ## Which nodes the loops can write -/

theorem arriveLoop_value_gt (W : Nat) (n : Int) (current : Nat) {j : Nat} (hj : current < j) :
    ∀ nodes : List Int, value (arriveLoop W n nodes current) j = value nodes j := by
  induction current using Nat.strong_induction_on with
  | _ current ih =>
    intro nodes
    rw [arriveLoop]
    split
    · split
      · rename_i hroot
        have h0 : 0 < current := by
          simp only [is_root, beq_eq_false_iff_ne, ne_eq] at hroot; omega
        have hp := parent_lt_self (W := W) h0
        rw [ih _ hp (by omega), value_setValue_ne n (by omega)]
      · exact value_setValue_ne n (by omega)
    · rfl

theorem departLoop_value_gt (W : Nat) (current : Nat) {j : Nat} (hj : current < j) :
    ∀ (nodes : List Int) (mvc : Int),
      value (departLoop W nodes current mvc) j = value nodes j := by
  induction current using Nat.strong_induction_on with
  | _ current ih =>
    intro nodes mvc
    rw [departLoop]
    split
    · split
      · rename_i hroot
        have h0 : 0 < current := by
          simp only [is_root, beq_eq_false_iff_ne, ne_eq] at hroot; omega
        have hp := parent_lt_self (W := W) h0
        rw [ih _ hp (by omega), value_setValue_ne mvc (by omega)]
      · exact value_setValue_ne mvc (by omega)
    · rfl

/-- The first iteration of `arrive` writes the leaf, the later ones write
internal nodes only: no other leaf changes. -/
theorem arrive_value_other_leaf {W D : Nat} (hW : 1 ≤ W) (hD : 1 ≤ D) (nodes : List Int)
    {i : Nat} (hi : i < MAX_THREADS W D) (n : Int) {j : Nat} (hj : FIRST_LEAF W D ≤ j)
    (hne : j ≠ getnode W D i) : value (arrive W D nodes i n) j = value nodes j := by
  unfold arrive
  rw [arriveLoop]
  split
  · split
    · rename_i hroot
      have h0 : 0 < getnode W D i := by
        simp only [is_root, beq_eq_false_iff_ne, ne_eq] at hroot; omega
      have hp := parent_lt_FIRST_LEAF hW hD h0 (getnode_lt_NUM_NODES hD hi)
      rw [arriveLoop_value_gt W n _ (by omega), value_setValue_ne n (Ne.symm hne)]
    · exact value_setValue_ne n (Ne.symm hne)
  · rfl

theorem depart_value_other_leaf {W D : Nat} (hW : 1 ≤ W) (hD : 1 ≤ D) (nodes : List Int)
    {i : Nat} (hi : i < MAX_THREADS W D) {j : Nat} (hj : FIRST_LEAF W D ≤ j)
    (hne : j ≠ getnode W D i) : value (depart W D nodes i) j = value nodes j := by
  unfold depart
  rw [departLoop]
  split
  · split
    · rename_i hroot
      have h0 : 0 < getnode W D i := by
        simp only [is_root, beq_eq_false_iff_ne, ne_eq] at hroot; omega
      have hp := parent_lt_FIRST_LEAF hW hD h0 (getnode_lt_NUM_NODES hD hi)
      rw [departLoop_value_gt W _ (by omega), value_setValue_ne _ (Ne.symm hne)]
    · exact value_setValue_ne _ (Ne.symm hne)
  · rfl

/-- After `depart` the leaf holds `INT_MAX`. -/
theorem depart_value_leaf {W D : Nat} (hD : 1 ≤ D) {nodes : List Int}
    (hlen : nodes.length = NUM_NODES W D) {i : Nat} (hi : i < MAX_THREADS W D)
    (hle : value nodes (getnode W D i) ≤ INT_MAX) :
    value (depart W D nodes i) (getnode W D i) = INT_MAX := by
  have hc : getnode W D i < nodes.length := by rw [hlen]; exact getnode_lt_NUM_NODES hD hi
  unfold depart
  rw [departLoop]
  split
  · split
    · rename_i hroot
      have h0 : 0 < getnode W D i := by
        simp only [is_root, beq_eq_false_iff_ne, ne_eq] at hroot; omega
      rw [departLoop_value_gt W _ (parent_lt_self h0), value_setValue_self _ hc]
    · exact value_setValue_self _ hc
  · omega

/-- After `arrive(i, n)` the leaf holds the smaller of its old value and `n`. -/
theorem arrive_value_leaf {W D : Nat} (hD : 1 ≤ D) {nodes : List Int}
    (hlen : nodes.length = NUM_NODES W D) {i : Nat} (hi : i < MAX_THREADS W D) (n : Int) :
    value (arrive W D nodes i n) (getnode W D i) = min (value nodes (getnode W D i)) n := by
  have hc : getnode W D i < nodes.length := by rw [hlen]; exact getnode_lt_NUM_NODES hD hi
  unfold arrive
  rw [arriveLoop]
  split
  · rename_i hlt
    rw [min_eq_right (le_of_lt hlt)]
    split
    · rename_i hroot
      have h0 : 0 < getnode W D i := by
        simp only [is_root, beq_eq_false_iff_ne, ne_eq] at hroot; omega
      rw [arriveLoop_value_gt W _ _ (parent_lt_self h0), value_setValue_self _ hc]
    · exact value_setValue_self _ hc
  · rename_i hlt
    rw [min_eq_left (not_lt.mp hlt)]

/-! ## Every node is the minimum of the leaves below it -/

theorem InSubtree_trans {W x y z : Nat} (hxy : InSubtree W x y) (hyz : InSubtree W y z) :
    InSubtree W x z := by
  induction hyz with
  | root => exact hxy
  | child _ hk ih => exact InSubtree.child ih hk

theorem InSubtree_zero {W : Nat} (hW : 1 ≤ W) (y : Nat) : InSubtree W 0 y := by
  induction y using Nat.strong_induction_on with
  | _ y ih =>
    by_cases h0 : y = 0
    · subst h0; exact InSubtree.root
    · obtain ⟨k, hk, hyk⟩ := child_of_parent hW (Nat.pos_of_ne_zero h0)
      rw [hyk]
      exact InSubtree.child (ih _ (parent_lt_self (Nat.pos_of_ne_zero h0))) hk

theorem is_leaf_iff (W D l : Nat) :
    is_leaf W D l = true ↔ FIRST_LEAF W D ≤ l ∧ l < NUM_NODES W D := by
  simp [is_leaf]

theorem is_leaf_getnode {W D i : Nat} (hD : 1 ≤ D) (hi : i < MAX_THREADS W D) :
    is_leaf W D (getnode W D i) = true :=
  (is_leaf_iff W D _).2 ⟨FIRST_LEAF_le_getnode W D i, getnode_lt_NUM_NODES hD hi⟩

theorem exists_getnode_of_is_leaf {W D l : Nat} (hD : 1 ≤ D) (hl : is_leaf W D l = true) :
    ∃ i, i < MAX_THREADS W D ∧ l = getnode W D i := by
  obtain ⟨h1, h2⟩ := (is_leaf_iff W D l).1 hl
  rw [NUM_NODES_eq_add hD] at h2
  exact ⟨l - FIRST_LEAF W D, by omega, by unfold getnode; omega⟩

theorem TreeInv_le_of_InSubtree {W D : Nat} (hW : 1 ≤ W) (hD : 1 ≤ D) {nodes : List Int}
    (hinv : TreeInv W D nodes) {x l : Nat} (h : InSubtree W x l) (hl : l < NUM_NODES W D) :
    value nodes x ≤ value nodes l := by
  induction h with
  | root => exact le_refl _
  | @child y k _ hk ih =>
    have hpos : 0 < children W y + k := by unfold children; omega
    have hy : y < FIRST_LEAF W D := by
      have := parent_lt_FIRST_LEAF hW hD hpos hl
      rwa [parent_children hW y hk] at this
    have hyl : y < NUM_NODES W D := by
      have := self_lt_children W y k hW; omega
    exact le_trans (ih hyl) ((hinv y hy).1 k hk)

theorem TreeInv_exists_leaf {W D : Nat} (hW : 1 ≤ W) (hD : 1 ≤ D) {nodes : List Int}
    (hinv : TreeInv W D nodes) :
    ∀ m x, NUM_NODES W D - x ≤ m → x < NUM_NODES W D →
      ∃ l, is_leaf W D l = true ∧ InSubtree W x l ∧ value nodes x = value nodes l := by
  intro m
  induction m with
  | zero => intro x h1 h2; omega
  | succ m ih =>
    intro x hm hx
    by_cases hint : x < FIRST_LEAF W D
    · obtain ⟨_, k, hk, hkeq⟩ := hinv x hint
      have hlt := self_lt_children W x k hW
      have hc := child_lt_NUM_NODES hD hint hk
      obtain ⟨l, hl, hsub, hval⟩ := ih (children W x + k) (by omega) hc
      exact ⟨l, hl, InSubtree_trans (InSubtree.child InSubtree.root hk) hsub,
        by rw [hkeq, hval]⟩
    · exact ⟨x, (is_leaf_iff W D x).2 ⟨by omega, hx⟩, InSubtree.root, rfl⟩

theorem TreeInv_IsSubtreeMin {W D : Nat} (hW : 1 ≤ W) (hD : 1 ≤ D) {nodes : List Int}
    (hinv : TreeInv W D nodes) {x : Nat} (hx : x < NUM_NODES W D) :
    IsSubtreeMin W D nodes x :=
  ⟨fun l hl hsub => TreeInv_le_of_InSubtree hW hD hinv hsub ((is_leaf_iff W D l).1 hl).2,
    TreeInv_exists_leaf hW hD hinv _ x (le_refl _) hx⟩

theorem NUM_NODES_pos {W D : Nat} (hD : 1 ≤ D) : 0 < NUM_NODES W D := by
  rw [NUM_NODES_eq_horner hD]; omega

/-- Under the tree invariant the root is the minimum of all the leaves. -/
theorem TreeInv_query {W D : Nat} (hW : 1 ≤ W) (hD : 1 ≤ D) {nodes : List Int}
    (hinv : TreeInv W D nodes) :
    (∀ i, i < MAX_THREADS W D → query nodes ≤ value nodes (getnode W D i)) ∧
      (∃ i, i < MAX_THREADS W D ∧ query nodes = value nodes (getnode W D i)) := by
  obtain ⟨hle, l, hl, _, hval⟩ := TreeInv_IsSubtreeMin hW hD hinv (NUM_NODES_pos (W := W) hD)
  refine ⟨fun i hi => hle _ (is_leaf_getnode hD hi) (InSubtree_zero hW _), ?_⟩
  obtain ⟨i, hi, rfl⟩ := exists_getnode_of_is_leaf hD hl
  exact ⟨i, hi, hval⟩

/-! ## Reachable states -/

theorem value_construct {W D idx : Nat} (h : idx < NUM_NODES W D) :
    value (construct W D) idx = INT_MAX := by
  simp [value, construct, List.getD_eq_getElem?_getD, List.getElem?_replicate, h]

theorem TreeInv_construct {W D : Nat} (hW : 1 ≤ W) (hD : 1 ≤ D) :
    TreeInv W D (construct W D) := by
  intro p hp
  have hpl : p < NUM_NODES W D := by
    have := self_lt_children W p 0 hW
    have := child_lt_NUM_NODES hD hp (k := 0) (by omega)
    omega
  rw [value_construct hpl]
  refine ⟨fun k hk => ?_, 0, by omega, ?_⟩
  · rw [value_construct (child_lt_NUM_NODES hD hp hk)]
  · rw [value_construct (child_lt_NUM_NODES hD hp (by omega))]

theorem Int32Values_construct (W D : Nat) : Int32Values (construct W D) := by
  intro v hv
  rw [construct, List.mem_replicate] at hv
  rw [hv.2]; exact IsInt32_INT_MAX

theorem length_construct (W D : Nat) : (construct W D).length = NUM_NODES W D := by
  simp [construct]

theorem length_arrive (W D : Nat) (nodes : List Int) (i : Nat) (n : Int) :
    (arrive W D nodes i n).length = nodes.length :=
  length_arriveLoop W n _ nodes

theorem length_depart (W D : Nat) (nodes : List Int) (i : Nat) :
    (depart W D nodes i).length = nodes.length :=
  length_departLoop W _ nodes _

theorem Int32Values_arrive (W D : Nat) {nodes : List Int} (h : Int32Values nodes) (i : Nat)
    {n : Int} (hn : IsInt32 n) : Int32Values (arrive W D nodes i n) :=
  Int32Values_arriveLoop W hn _ nodes h

theorem Int32Values_depart {W : Nat} (hW : 1 ≤ W) (D : Nat) {nodes : List Int}
    (h : Int32Values nodes) (i : Nat) : Int32Values (depart W D nodes i) :=
  Int32Values_departLoop hW _ nodes _ h IsInt32_INT_MAX

theorem Reachable_inv {W D : Nat} (hW : 1 ≤ W) (hD : 1 ≤ D) {nodes : List Int}
    (h : Reachable W D nodes) :
    nodes.length = NUM_NODES W D ∧ Int32Values nodes ∧ TreeInv W D nodes := by
  induction h with
  | init => exact ⟨length_construct W D, Int32Values_construct W D, TreeInv_construct hW hD⟩
  | arrive i n _ hi hn ih =>
    obtain ⟨h1, h2, h3⟩ := ih
    exact ⟨by rw [length_arrive, h1], Int32Values_arrive W D h2 i hn,
      arrive_TreeInv hW hD h1 h3 hi n⟩
  | depart i _ hi ih =>
    obtain ⟨h1, h2, h3⟩ := ih
    exact ⟨by rw [length_depart, h1], Int32Values_depart hW D h2 i,
      depart_TreeInv hW hD h1 h3 hi⟩

/-! ## Matched histories -/

theorem run_properlyMatched {W D : Nat} (hW : 1 ≤ W) (hD : 1 ≤ D) (ops : List Op) :
    ∀ (nodes : List Int) (act : Nat → Option Int),
      nodes.length = NUM_NODES W D → TreeInv W D nodes →
      (∀ i, i < MAX_THREADS W D → value nodes (getnode W D i) = (act i).getD INT_MAX) →
      (∀ i n, act i = some n → i < MAX_THREADS W D ∧ n < INT_MAX) →
      properlyMatched W D act ops = true →
      (run W D nodes ops).length = NUM_NODES W D ∧ TreeInv W D (run W D nodes ops) ∧
        (∀ i, i < MAX_THREADS W D →
          value (run W D nodes ops) (getnode W D i) = ((ops.foldl publish act) i).getD INT_MAX) ∧
        (∀ i n, (ops.foldl publish act) i = some n → i < MAX_THREADS W D ∧ n < INT_MAX) := by
  induction ops with
  | nil => intro nodes act h1 h2 h3 h4 _; exact ⟨h1, h2, h3, h4⟩
  | cons op ops ih =>
    intro nodes act h1 h2 h3 h4 hm
    cases op with
    | arrive i n =>
      simp only [properlyMatched, Bool.and_eq_true, decide_eq_true_eq] at hm
      obtain ⟨⟨⟨hi, hn⟩, hact⟩, hrest⟩ := hm
      refine ih (arrive W D nodes i n) (publish act (Op.arrive i n))
        (by rw [length_arrive, h1]) (arrive_TreeInv hW hD h1 h2 hi n) ?_ ?_ hrest
      · intro j hj
        by_cases hji : j = i
        · subst hji
          rw [arrive_value_leaf hD h1 hj n, h3 j hj, hact]
          simp only [publish, if_pos, Option.getD_none, Option.getD_some]
          exact min_eq_right (le_of_lt hn)
        · rw [arrive_value_other_leaf hW hD nodes hi n (FIRST_LEAF_le_getnode W D j)
            (by unfold getnode; omega), h3 j hj]
          simp only [publish, if_neg hji]
      · intro j m hjm
        by_cases hji : j = i
        · subst hji
          simp only [publish, if_pos, Option.some.injEq] at hjm
          exact ⟨hi, by omega⟩
        · simp only [publish, if_neg hji] at hjm
          exact h4 j m hjm
    | depart i =>
      simp only [properlyMatched, Bool.and_eq_true, decide_eq_true_eq] at hm
      obtain ⟨⟨hi, _⟩, hrest⟩ := hm
      have hle : value nodes (getnode W D i) ≤ INT_MAX := by
        rw [h3 i hi]
        cases hai : act i with
        | none => simp
        | some m => simp only [Option.getD_some]; exact le_of_lt (h4 i m hai).2
      refine ih (depart W D nodes i) (publish act (Op.depart i))
        (by rw [length_depart, h1]) (depart_TreeInv hW hD h1 h2 hi) ?_ ?_ hrest
      · intro j hj
        by_cases hji : j = i
        · subst hji
          rw [depart_value_leaf hD h1 hj hle]
          simp only [publish, if_pos, Option.getD_none]
        · rw [depart_value_other_leaf hW hD nodes hi (FIRST_LEAF_le_getnode W D j)
            (by unfold getnode; omega), h3 j hj]
          simp only [publish, if_neg hji]
      · intro j m hjm
        by_cases hji : j = i
        · subst hji
          simp only [publish, if_pos] at hjm
          exact absurd hjm (by simp)
        · simp only [publish, if_neg hji] at hjm
          exact h4 j m hjm

/-! ## arrive only lowers values -/

theorem value_setValue_le {nodes : List Int} {c : Nat} {v : Int} (h : v ≤ value nodes c)
    (j : Nat) : value (setValue nodes c v) j ≤ value nodes j := by
  by_cases hjc : c = j
  · subst hjc
    by_cases hc : c < nodes.length
    · rw [value_setValue_self v hc]; exact h
    · have : setValue nodes c v = nodes := by
        unfold setValue; exact List.set_eq_of_length_le (by omega)
      rw [this]
  · rw [value_setValue_ne v hjc]

theorem arriveLoop_value_le (W : Nat) (n : Int) (current : Nat) :
    ∀ (nodes : List Int) (j : Nat), value (arriveLoop W n nodes current) j ≤ value nodes j := by
  induction current using Nat.strong_induction_on with
  | _ current ih =>
    intro nodes j
    rw [arriveLoop]
    split
    · rename_i hlt
      split
      · rename_i hroot
        have h0 : 0 < current := by
          simp only [is_root, beq_eq_false_iff_ne, ne_eq] at hroot; omega
        exact le_trans (ih _ (parent_lt_self h0) _ j) (value_setValue_le (le_of_lt hlt) j)
      · exact value_setValue_le (le_of_lt hlt) j
    · exact le_refl _

theorem arriveLoop_root (W : Nat) (n : Int) (current : Nat) :
    ∀ nodes : List Int, current < nodes.length → (∀ a, a ≤ current → n < value nodes a) →
      value (arriveLoop W n nodes current) 0 = n := by
  induction current using Nat.strong_induction_on with
  | _ current ih =>
    intro nodes hc hall
    rw [arriveLoop, if_pos (hall current (le_refl _))]
    split
    · rename_i hroot
      have h0 : 0 < current := by
        simp only [is_root, beq_eq_false_iff_ne, ne_eq] at hroot; omega
      have hp := parent_lt_self (W := W) h0
      apply ih _ hp _ (by rw [length_setValue]; omega)
      intro a ha
      rw [value_setValue_ne n (by omega)]
      exact hall a (by omega)
    · rename_i hroot
      have h0 : current = 0 := by
        simpa [is_root] using hroot
      subst h0
      exact value_setValue_self n hc

/-! ## Departing from every active leaf -/

theorem departs_all {W D : Nat} (hW : 1 ≤ W) (hD : 1 ≤ D) (ls : List Nat) :
    ∀ nodes : List Int, nodes.length = NUM_NODES W D → Int32Values nodes → TreeInv W D nodes →
      (∀ i, i ∈ ls → i < MAX_THREADS W D) →
      (ls.foldl (depart W D) nodes).length = NUM_NODES W D ∧
        TreeInv W D (ls.foldl (depart W D) nodes) ∧
        (∀ i, i < MAX_THREADS W D → (i ∈ ls ∨ value nodes (getnode W D i) = INT_MAX) →
          value (ls.foldl (depart W D) nodes) (getnode W D i) = INT_MAX) := by
  induction ls with
  | nil =>
    intro nodes h1 _ h3 _
    refine ⟨h1, h3, fun i _ h => ?_⟩
    rcases h with h | h
    · simp at h
    · exact h
  | cons a ls ih =>
    intro nodes h1 h2 h3 hvalid
    have ha : a < MAX_THREADS W D := hvalid a (List.mem_cons_self a ls)
    obtain ⟨r1, r2, r3⟩ := ih (depart W D nodes a) (by rw [length_depart, h1])
      (Int32Values_depart hW D h2 a) (depart_TreeInv hW hD h1 h3 ha)
      (fun i hi => hvalid i (List.mem_cons_of_mem a hi))
    refine ⟨r1, r2, fun i hi h => r3 i hi ?_⟩
    by_cases hia : i = a
    · subst hia
      exact Or.inr (depart_value_leaf hD h1 hi (IsInt32_value h2 _).2)
    · rcases h with h | h
      · rcases List.mem_cons.1 h with h | h
        · exact absurd h hia
        · exact Or.inl h
      · right
        rw [depart_value_other_leaf hW hD nodes ha (FIRST_LEAF_le_getnode W D i)
          (by unfold getnode; omega)]
        exact h

/-! ## The accesses of the operations -/

theorem scanChildrenTrace_mem {W D p : Nat} (hW : 1 ≤ W) (hD : 1 ≤ D)
    (hp : p < FIRST_LEAF W D) {e : Event} (he : e ∈ scanChildrenTrace W p) :
    ∃ x, x < NUM_NODES W D ∧ e = Event.read x := by
  unfold scanChildrenTrace at he
  rcases List.mem_cons.1 he with h | h
  · exact ⟨_, child_lt_NUM_NODES hD hp (k := 0) (by omega), h⟩
  · obtain ⟨k, hk, hke⟩ := List.mem_map.1 h
    rw [List.mem_range] at hk
    refine ⟨_, ?_, hke.symm⟩
    have := child_lt_NUM_NODES hD hp (k := 1 + k) (by omega)
    omega

/-- Every access of the loop of `arrive` is a read or a write of a node at or
above `current` in the array order, and every write is one. -/
theorem arriveLoopTrace_mem (W : Nat) (n : Int) (current : Nat) :
    ∀ (nodes : List Int) (e : Event), e ∈ arriveLoopTrace W n nodes current →
      ∃ x, x ≤ current ∧ (e = Event.read x ∨ e = Event.write x) := by
  induction current using Nat.strong_induction_on with
  | _ current ih =>
    intro nodes e he
    rw [arriveLoopTrace] at he
    split at he
    · split at he
      · rename_i hroot
        have h0 : 0 < current := by
          simp only [is_root, beq_eq_false_iff_ne, ne_eq] at hroot; omega
        have hp := parent_lt_self (W := W) h0
        rcases List.mem_cons.1 he with h | h
        · exact ⟨current, le_refl _, Or.inl h⟩
        · rcases List.mem_cons.1 h with h | h
          · exact ⟨current, le_refl _, Or.inr h⟩
          · obtain ⟨x, hx, hxe⟩ := ih _ hp _ e h
            exact ⟨x, by omega, hxe⟩
      · simp only [List.mem_cons, List.mem_singleton, List.not_mem_nil, or_false] at he
        exact ⟨current, le_refl _, he⟩
    · simp only [List.mem_singleton] at he
      exact ⟨current, le_refl _, Or.inl he⟩

/-- Every access of the loop of `depart` is a read or a write of a node of
the array, and every write is at or above `current` in the array order. -/
theorem departLoopTrace_mem {W D : Nat} (hW : 1 ≤ W) (hD : 1 ≤ D) (current : Nat) :
    ∀ (nodes : List Int) (mvc : Int) (e : Event), current < NUM_NODES W D →
      e ∈ departLoopTrace W nodes current mvc →
      ∃ x, x < NUM_NODES W D ∧ (e = Event.read x ∨ (e = Event.write x ∧ x ≤ current)) := by
  induction current using Nat.strong_induction_on with
  | _ current ih =>
    intro nodes mvc e hcur he
    rw [departLoopTrace] at he
    split at he
    · split at he
      · rename_i hroot
        have h0 : 0 < current := by
          simp only [is_root, beq_eq_false_iff_ne, ne_eq] at hroot; omega
        have hp := parent_lt_self (W := W) h0
        have hpFL := parent_lt_FIRST_LEAF hW hD h0 hcur
        rcases List.mem_cons.1 he with h | h
        · exact ⟨current, hcur, Or.inl h⟩
        · rcases List.mem_cons.1 h with h | h
          · exact ⟨current, hcur, Or.inr ⟨h, le_refl _⟩⟩
          · rcases List.mem_append.1 h with h | h
            · obtain ⟨x, hx, hxe⟩ := scanChildrenTrace_mem hW hD hpFL h
              exact ⟨x, hx, Or.inl hxe⟩
            · obtain ⟨x, hx, hxe⟩ := ih _ hp _ _ e (by omega) h
              refine ⟨x, hx, ?_⟩
              rcases hxe with hxe | ⟨hxe, hle⟩
              · exact Or.inl hxe
              · exact Or.inr ⟨hxe, by omega⟩
      · simp only [List.mem_cons, List.mem_singleton, List.not_mem_nil, or_false] at he
        rcases he with h | h
        · exact ⟨current, hcur, Or.inl h⟩
        · exact ⟨current, hcur, Or.inr ⟨h, le_refl _⟩⟩
    · simp only [List.mem_singleton] at he
      exact ⟨current, hcur, Or.inl he⟩

theorem insideLock_append_of_access (tr rest : List Event)
    (h : ∀ e, e ∈ tr → ∃ x, e = Event.read x ∨ e = Event.write x) :
    insideLock true (tr ++ rest) = insideLock true rest := by
  induction tr with
  | nil => rfl
  | cons e tr ih =>
    have ih2 := ih (fun e he => h e (List.mem_cons_of_mem _ he))
    obtain ⟨x, hx | hx⟩ := h e (List.mem_cons_self e tr)
    · subst hx; simp only [List.cons_append, insideLock, Bool.true_and]; exact ih2
    · subst hx; simp only [List.cons_append, insideLock, Bool.true_and]; exact ih2

/-- The loop of `depart` makes only reads and writes, whatever the array, and
every write is at or above `current` in the array order. -/
theorem departLoopTrace_access (W : Nat) (current : Nat) :
    ∀ (nodes : List Int) (mvc : Int) (e : Event), e ∈ departLoopTrace W nodes current mvc →
      ∃ x, e = Event.read x ∨ (e = Event.write x ∧ x ≤ current) := by
  induction current using Nat.strong_induction_on with
  | _ current ih =>
    intro nodes mvc e he
    rw [departLoopTrace] at he
    split at he
    · split at he
      · rename_i hroot
        have h0 : 0 < current := by
          simp only [is_root, beq_eq_false_iff_ne, ne_eq] at hroot; omega
        have hp := parent_lt_self (W := W) h0
        rcases List.mem_cons.1 he with h | h
        · exact ⟨current, Or.inl h⟩
        · rcases List.mem_cons.1 h with h | h
          · exact ⟨current, Or.inr ⟨h, le_refl _⟩⟩
          · rcases List.mem_append.1 h with h | h
            · unfold scanChildrenTrace at h
              rcases List.mem_cons.1 h with h | h
              · exact ⟨_, Or.inl h⟩
              · obtain ⟨k, _, hke⟩ := List.mem_map.1 h
                exact ⟨_, Or.inl hke.symm⟩
            · obtain ⟨x, hx | ⟨hx, hle⟩⟩ := ih _ hp _ _ e h
              · exact ⟨x, Or.inl hx⟩
              · exact ⟨x, Or.inr ⟨hx, by omega⟩⟩
      · simp only [List.mem_cons, List.mem_singleton, List.not_mem_nil, or_false] at he
        rcases he with h | h
        · exact ⟨current, Or.inl h⟩
        · exact ⟨current, Or.inr ⟨h, le_refl _⟩⟩
    · simp only [List.mem_singleton] at he
      exact ⟨current, Or.inl he⟩

/-- The first run of the body of `depart` writes `current`, every later run a
node at or above its parent in the array order. -/
theorem departLoopTrace_write {W : Nat} {nodes : List Int} {current : Nat} {mvc : Int}
    {x : Nat} (hx : Event.write x ∈ departLoopTrace W nodes current mvc) :
    x = current ∨ (0 < current ∧ x ≤ parent W current) := by
  rw [departLoopTrace] at hx
  split at hx
  · split at hx
    · rename_i hroot
      have h0 : 0 < current := by
        simp only [is_root, beq_eq_false_iff_ne, ne_eq] at hroot; omega
      rcases List.mem_cons.1 hx with h | h
      · exact absurd h (by simp)
      · rcases List.mem_cons.1 h with h | h
        · left; injection h
        · rcases List.mem_append.1 h with h | h
          · exfalso
            unfold scanChildrenTrace at h
            rcases List.mem_cons.1 h with h | h
            · exact absurd h (by simp)
            · obtain ⟨k, _, hke⟩ := List.mem_map.1 h
              exact absurd hke (by simp)
          · right
            obtain ⟨y, hy | ⟨hy, hle⟩⟩ := departLoopTrace_access W _ _ _ _ h
            · exact absurd hy (by simp)
            · injection hy with hxy; subst hxy; exact ⟨h0, hle⟩
    · simp only [List.mem_cons, List.mem_singleton, List.not_mem_nil, or_false] at hx
      rcases hx with h | h
      · exact absurd h (by simp)
      · left; injection h
  · simp only [List.mem_singleton] at hx
    exact absurd hx (by simp)

/-! ## The number of runs of the loop bodies -/

theorem bodyRuns_append (tr rest : List Event) :
    bodyRuns (tr ++ rest) = bodyRuns tr + bodyRuns rest := by
  induction tr with
  | nil => simp [bodyRuns]
  | cons e tr ih =>
    rw [List.cons_append]
    cases e
    · simp only [bodyRuns]; exact ih
    · simp only [bodyRuns]; exact ih
    · simp only [bodyRuns]; exact ih
    · simp only [bodyRuns]; omega

theorem bodyRuns_read_cons (x : Nat) (tr : List Event) :
    bodyRuns (Event.read x :: tr) = bodyRuns tr := rfl

theorem bodyRuns_write_cons (x : Nat) (tr : List Event) :
    bodyRuns (Event.write x :: tr) = bodyRuns tr + 1 := rfl

theorem bodyRuns_scanChildrenTrace (W p : Nat) : bodyRuns (scanChildrenTrace W p) = 0 := by
  unfold scanChildrenTrace
  simp only [bodyRuns]
  induction (List.range (W - 1)) with
  | nil => rfl
  | cons k ks ih => simp only [List.map_cons, bodyRuns]; exact ih

theorem parent_lt_GeoSum {W d c : Nat} (hW : 1 ≤ W) (h0 : 0 < c)
    (hc : c < GeoSum 1 W (d + 1)) : parent W c < GeoSum 1 W d :=
  parent_lt_FIRST_LEAF (D := d + 1) hW (by omega) h0 hc

theorem bodyRuns_arriveLoopTrace {W : Nat} (hW : 1 ≤ W) (n : Int) (d : Nat) :
    ∀ (nodes : List Int) (current : Nat), current < GeoSum 1 W (d + 1) →
      bodyRuns (arriveLoopTrace W n nodes current) ≤ d + 1 := by
  induction d with
  | zero =>
    intro nodes current hc
    have h0 : current = 0 := by simp [GeoSum] at hc; exact hc
    subst h0
    rw [arriveLoopTrace]
    split
    · simp [is_root, bodyRuns]
    · simp [bodyRuns]
  | succ d ih =>
    intro nodes current hc
    rw [arriveLoopTrace]
    split
    · split
      · rename_i hroot
        have h0 : 0 < current := by
          simp only [is_root, beq_eq_false_iff_ne, ne_eq] at hroot; omega
        simp only [bodyRuns]
        have := ih (setValue nodes current n) (parent W current) (parent_lt_GeoSum hW h0 hc)
        omega
      · simp [bodyRuns]
    · simp [bodyRuns]

theorem bodyRuns_departLoopTrace {W : Nat} (hW : 1 ≤ W) (d : Nat) :
    ∀ (nodes : List Int) (current : Nat) (mvc : Int), current < GeoSum 1 W (d + 1) →
      bodyRuns (departLoopTrace W nodes current mvc) ≤ d + 1 := by
  induction d with
  | zero =>
    intro nodes current mvc hc
    have h0 : current = 0 := by simp [GeoSum] at hc; exact hc
    subst h0
    rw [departLoopTrace]
    split
    · simp [is_root, bodyRuns]
    · simp [bodyRuns]
  | succ d ih =>
    intro nodes current mvc hc
    rw [departLoopTrace]
    split
    · split
      · rename_i hroot
        have h0 : 0 < current := by
          simp only [is_root, beq_eq_false_iff_ne, ne_eq] at hroot; omega
        rw [bodyRuns_read_cons, bodyRuns_write_cons, bodyRuns_append,
          bodyRuns_scanChildrenTrace]
        have := ih (setValue nodes current mvc) (parent W current)
          (scanChildren W (setValue nodes current mvc) (parent W current))
          (parent_lt_GeoSum hW h0 hc)
        omega
      · simp [bodyRuns]
    · simp [bodyRuns]

theorem parent_iterate_eq_zero {W : Nat} (hW : 1 ≤ W) (d : Nat) :
    ∀ x, x < GeoSum 1 W (d + 1) → (parent W)^[d] x = 0 := by
  induction d with
  | zero => intro x hx; simp [GeoSum] at hx; simpa using hx
  | succ d ih =>
    intro x hx
    rw [Function.iterate_succ_apply]
    apply ih
    by_cases h0 : x = 0
    · subst h0
      have : parent W 0 = 0 := by simp [parent]
      rw [this, GeoSum_one_succ]; omega
    · exact parent_lt_GeoSum hW (Nat.pos_of_ne_zero h0) hx

theorem GeoSum_le_parent {W d x : Nat} (hW : 1 ≤ W) (hx : GeoSum 1 W (d + 1) ≤ x) :
    GeoSum 1 W d ≤ parent W x := by
  rw [GeoSum_one_succ] at hx
  unfold parent
  rw [Nat.le_div_iff_mul_le (by omega), Nat.mul_comm]
  omega

theorem GeoSum_le_parent_iterate {W : Nat} (hW : 1 ≤ W) (k : Nat) :
    ∀ d x, GeoSum 1 W (d + k) ≤ x → GeoSum 1 W d ≤ (parent W)^[k] x := by
  induction k with
  | zero => intro d x hx; simpa using hx
  | succ k ih =>
    intro d x hx
    rw [Function.iterate_succ_apply]
    exact ih d _ (GeoSum_le_parent hW (by rw [← Nat.add_assoc] at hx; exact hx))

/-! ## The path from a node to the root -/

theorem InSubtree_le {W x y : Nat} (hW : 1 ≤ W) (h : InSubtree W x y) : x ≤ y := by
  induction h with
  | root => exact le_refl _
  | @child y k _ _ ih => have := self_lt_children W y k hW; omega

theorem InSubtree_parent {W x c : Nat} (hW : 1 ≤ W) (h : InSubtree W x c) (hne : x ≠ c) :
    InSubtree W x (parent W c) := by
  cases h with
  | root => exact absurd rfl hne
  | @child y k hy hk => rw [parent_children hW y hk]; exact hy

theorem InSubtree_of_parent {W x c : Nat} (hW : 1 ≤ W) (h0 : 0 < c)
    (h : InSubtree W x (parent W c)) : InSubtree W x c := by
  obtain ⟨k, hk, hck⟩ := child_of_parent hW h0
  rw [hck]; exact InSubtree.child h hk

/-- The loop of `arrive` changes no node off the path from `current` to the
root. -/
theorem arriveLoop_value_off_path {W : Nat} (hW : 1 ≤ W) (n : Int) (current : Nat) {x : Nat} :
    ∀ nodes : List Int, ¬ InSubtree W x current →
      value (arriveLoop W n nodes current) x = value nodes x := by
  induction current using Nat.strong_induction_on with
  | _ current ih =>
    intro nodes hx
    have hne : current ≠ x := fun h => hx (h ▸ InSubtree.root)
    rw [arriveLoop]
    split
    · split
      · rename_i hroot
        have h0 : 0 < current := by
          simp only [is_root, beq_eq_false_iff_ne, ne_eq] at hroot; omega
        rw [ih _ (parent_lt_self h0) _ (fun h => hx (InSubtree_of_parent hW h0 h)),
          value_setValue_ne n hne]
      · exact value_setValue_ne n hne
    · rfl

/-- When the values do not increase towards the root along the path from
`current`, the loop of `arrive` leaves every node `x` of that path with the
smaller of its old value and `n`. -/
theorem arriveLoop_value_on_path {W : Nat} (hW : 1 ≤ W) (n : Int) (current : Nat) :
    ∀ nodes : List Int, current < nodes.length →
      (∀ a b, InSubtree W a b → InSubtree W b current → value nodes a ≤ value nodes b) →
      ∀ x, InSubtree W x current →
        value (arriveLoop W n nodes current) x = min (value nodes x) n := by
  induction current using Nat.strong_induction_on with
  | _ current ih =>
    intro nodes hc hmono x hx
    rw [arriveLoop]
    by_cases hlt : n < value nodes current
    · rw [if_pos hlt]
      by_cases hroot : is_root current = false
      · rw [if_pos hroot]
        have h0 : 0 < current := by
          simp only [is_root, beq_eq_false_iff_ne, ne_eq] at hroot; omega
        have hp := parent_lt_self (W := W) h0
        by_cases hxc : x = current
        · subst hxc
          rw [arriveLoop_value_gt W n _ hp, value_setValue_self n hc,
            min_eq_right (le_of_lt hlt)]
        · have hxp := InSubtree_parent hW hx hxc
          have hxle := InSubtree_le hW hxp
          rw [ih _ hp _ (by rw [length_setValue]; omega) ?_ x hxp,
            value_setValue_ne n (by omega)]
          intro a b hab hb
          have hble := InSubtree_le hW hb
          have hale := InSubtree_le hW hab
          rw [value_setValue_ne n (by omega), value_setValue_ne n (by omega)]
          exact hmono a b hab (InSubtree_of_parent hW h0 hb)
      · rw [if_neg hroot]
        have h0 : current = 0 := by
          simpa [is_root] using hroot
        have hx0 : x = current := by
          have := InSubtree_le hW hx; omega
        subst hx0
        rw [value_setValue_self n hc, min_eq_right (le_of_lt hlt)]
    · rw [if_neg hlt]
      have := hmono x current hx InSubtree.root
      rw [min_eq_left (by omega)]

/-! ## A state with the tree invariant is determined by its leaves -/

theorem TreeInv_value_ext {W D : Nat} (hW : 1 ≤ W) (hD : 1 ≤ D) {s1 s2 : List Int}
    (h1 : TreeInv W D s1) (h2 : TreeInv W D s2)
    (hleaf : ∀ i, i < MAX_THREADS W D → value s1 (getnode W D i) = value s2 (getnode W D i))
    {x : Nat} (hx : x < NUM_NODES W D) : value s1 x = value s2 x := by
  obtain ⟨hle1, l1, hl1, hsub1, hv1⟩ := TreeInv_IsSubtreeMin hW hD h1 hx
  obtain ⟨hle2, l2, hl2, hsub2, hv2⟩ := TreeInv_IsSubtreeMin hW hD h2 hx
  have hleaf2 : ∀ l, is_leaf W D l = true → value s1 l = value s2 l := by
    intro l hl
    obtain ⟨i, hi, rfl⟩ := exists_getnode_of_is_leaf hD hl
    exact hleaf i hi
  have a1 := hle1 l2 hl2 hsub2
  have a2 := hle2 l1 hl1 hsub1
  rw [hleaf2 l2 hl2] at a1
  rw [← hleaf2 l1 hl1] at a2
  omega

theorem eq_of_value_eq {s1 s2 : List Int} (hlen : s1.length = s2.length)
    (h : ∀ x, x < s1.length → value s1 x = value s2 x) : s1 = s2 := by
  apply List.ext_getElem hlen
  intro x hx1 hx2
  have := h x hx1
  unfold value at this
  rwa [List.getD_eq_getElem _ _ hx1, List.getD_eq_getElem _ _ hx2] at this

theorem TreeInv_ext {W D : Nat} (hW : 1 ≤ W) (hD : 1 ≤ D) {s1 s2 : List Int}
    (hl1 : s1.length = NUM_NODES W D) (hl2 : s2.length = NUM_NODES W D)
    (h1 : TreeInv W D s1) (h2 : TreeInv W D s2)
    (hleaf : ∀ i, i < MAX_THREADS W D → value s1 (getnode W D i) = value s2 (getnode W D i)) :
    s1 = s2 :=
  eq_of_value_eq (by rw [hl1, hl2])
    (fun _ hx => TreeInv_value_ext hW hD h1 h2 hleaf (by rw [hl1] at hx; exact hx))

/-! ## The effect of one call on the leaves -/

theorem getnode_ne {W D i j : Nat} (h : j ≠ i) : getnode W D j ≠ getnode W D i := by
  unfold getnode; omega

theorem validOp_index {W D : Nat} {op : Op} (h : validOp W D op = true) :
    opIndex op < MAX_THREADS W D := by
  cases op <;> simp [validOp] at h <;> simp [opIndex] <;> omega

theorem applyOp_length (W D : Nat) (nodes : List Int) (op : Op) :
    (applyOp W D nodes op).length = nodes.length := by
  cases op
  · exact length_arrive W D nodes _ _
  · exact length_depart W D nodes _

theorem applyOp_Int32Values {W D : Nat} (hW : 1 ≤ W) {nodes : List Int}
    (h : Int32Values nodes) {op : Op} (hop : validOp W D op = true) :
    Int32Values (applyOp W D nodes op) := by
  cases op with
  | arrive i n =>
    simp only [validOp, Bool.and_eq_true, decide_eq_true_eq] at hop
    exact Int32Values_arrive W D h i hop.2
  | depart i => exact Int32Values_depart hW D h i

theorem applyOp_TreeInv {W D : Nat} (hW : 1 ≤ W) (hD : 1 ≤ D) {nodes : List Int}
    (hlen : nodes.length = NUM_NODES W D) (h : TreeInv W D nodes) {op : Op}
    (hop : validOp W D op = true) : TreeInv W D (applyOp W D nodes op) := by
  have hi := validOp_index hop
  cases op with
  | arrive i n => exact arrive_TreeInv hW hD hlen h hi n
  | depart i => exact depart_TreeInv hW hD hlen h hi

theorem applyOp_value_other_leaf {W D : Nat} (hW : 1 ≤ W) (hD : 1 ≤ D) (nodes : List Int)
    {op : Op} (hop : validOp W D op = true) {j : Nat} (hj : j ≠ opIndex op) :
    value (applyOp W D nodes op) (getnode W D j) = value nodes (getnode W D j) := by
  have hi := validOp_index hop
  cases op with
  | arrive i n =>
    exact arrive_value_other_leaf hW hD nodes hi n (FIRST_LEAF_le_getnode W D j) (getnode_ne hj)
  | depart i =>
    exact depart_value_other_leaf hW hD nodes hi (FIRST_LEAF_le_getnode W D j) (getnode_ne hj)

/-- The value a call leaves in its own leaf depends on the old value of that
leaf only. -/
theorem applyOp_value_leaf_congr {W D : Nat} (hD : 1 ≤ D) {s1 s2 : List Int}
    (hl1 : s1.length = NUM_NODES W D) (hl2 : s2.length = NUM_NODES W D)
    (hv1 : Int32Values s1) (hv2 : Int32Values s2) {op : Op} (hop : validOp W D op = true)
    (h : value s1 (getnode W D (opIndex op)) = value s2 (getnode W D (opIndex op))) :
    value (applyOp W D s1 op) (getnode W D (opIndex op)) =
      value (applyOp W D s2 op) (getnode W D (opIndex op)) := by
  have hi := validOp_index hop
  cases op with
  | arrive i n =>
    simp only [applyOp, opIndex] at *
    rw [arrive_value_leaf hD hl1 hi, arrive_value_leaf hD hl2 hi, h]
  | depart i =>
    simp only [applyOp, opIndex] at *
    rw [depart_value_leaf hD hl1 hi (IsInt32_value hv1 _).2,
      depart_value_leaf hD hl2 hi (IsInt32_value hv2 _).2]

/-! ## The tree refines the flat model -/

theorem run_refines_flat {W D : Nat} (hW : 1 ≤ W) (hD : 1 ≤ D) (ops : List Op) :
    ∀ (nodes a : List Int), nodes.length = NUM_NODES W D → Int32Values nodes →
      TreeInv W D nodes → a.length = MAX_THREADS W D →
      (∀ i, i < MAX_THREADS W D → value nodes (getnode W D i) = value a i) →
      (∀ op, op ∈ ops → validOp W D op = true) →
      (run W D nodes ops).length = NUM_NODES W D ∧ Int32Values (run W D nodes ops) ∧
        TreeInv W D (run W D nodes ops) ∧ (flatRun a ops).length = MAX_THREADS W D ∧
        (∀ i, i < MAX_THREADS W D →
          value (run W D nodes ops) (getnode W D i) = value (flatRun a ops) i) := by
  induction ops with
  | nil => intro nodes a h1 h2 h3 h4 h5 _; exact ⟨h1, h2, h3, h4, h5⟩
  | cons op ops ih =>
    intro nodes a h1 h2 h3 h4 h5 hv
    have hop := hv op (List.mem_cons_self op ops)
    have hi := validOp_index hop
    refine ih (applyOp W D nodes op) (flatApply a op) (by rw [applyOp_length, h1])
      (applyOp_Int32Values hW h2 hop) (applyOp_TreeInv hW hD h1 h3 hop) ?_ ?_
      (fun o ho => hv o (List.mem_cons_of_mem op ho))
    · cases op <;> simp only [flatApply, length_setValue, h4]
    · intro j hj
      cases op with
      | arrive i n =>
        simp only [opIndex] at hi
        simp only [applyOp, flatApply]
        by_cases hji : j = i
        · subst hji
          rw [arrive_value_leaf hD h1 hj n, value_setValue_self _ (by omega), h5 j hj]
        · rw [arrive_value_other_leaf hW hD nodes hi n (FIRST_LEAF_le_getnode W D j)
            (getnode_ne hji), value_setValue_ne _ (Ne.symm hji), h5 j hj]
      | depart i =>
        simp only [opIndex] at hi
        simp only [applyOp, flatApply]
        by_cases hji : j = i
        · subst hji
          rw [depart_value_leaf hD h1 hj (IsInt32_value h2 _).2,
            value_setValue_self _ (by omega)]
        · rw [depart_value_other_leaf hW hD nodes hi (FIRST_LEAF_le_getnode W D j)
            (getnode_ne hji), value_setValue_ne _ (Ne.symm hji), h5 j hj]

theorem value_flatInit {W D i : Nat} (hi : i < MAX_THREADS W D) :
    value (flatInit W D) i = INT_MAX := by
  simp [value, flatInit, List.getD_eq_getElem?_getD, List.getElem?_replicate, hi]

/-! ## Interleavings under the lock -/

theorem getElem?_lt {α : Type} {l : List α} {t : Nat} {a : α} (h : l[t]? = some a) :
    t < l.length := by
  obtain ⟨hlt, _⟩ := List.getElem?_eq_some.1 h
  exact hlt

/-- A step of the thread inside a call, which keeps the lock. -/
theorem LockInv_inside {W D : Nat} {nodes0 : List Int} {programs : List (List Op)}
    {s : Machine} {t : Nat} {th th2 : Thread} {nodes2 : List Int}
    (hinv : LockInv W D nodes0 programs s) (hth : s.threads[t]? = some th)
    (hbusy : isIdle th = false) (hbusy2 : isIdle th2 = false)
    (hrem : remaining th2 = remaining th)
    (hcomp : complete W nodes2 th2 = complete W s.nodes th) :
    LockInv W D nodes0 programs (Machine.mk nodes2 s.lock (s.threads.set t th2) s.acquired) := by
  obtain ⟨h1, h2, h3, h4, h5⟩ := hinv
  have hlt := getElem?_lt hth
  have hlock : s.lock = true := by
    cases hl : s.lock with
    | true => rfl
    | false => have := (h4 hl).1 t th hth; rw [hbusy] at this; exact absurd this (by simp)
  obtain ⟨h, thh, hh1, hh2, hh3, hh4⟩ := h5 hlock
  have hth_eq : t = h := by
    by_contra hne
    have := hh3 t th hne hth
    rw [hbusy] at this; exact absurd this (by simp)
  subst hth_eq
  have hthh : thh = th := by rw [hth] at hh1; injection hh1 with e; exact e.symm
  subst hthh
  refine ⟨by simp [h1], ?_, h3, ?_, ?_⟩
  · intro u thu p hu hp
    simp only at hu
    by_cases hut : u = t
    · subst hut
      rw [List.getElem?_set_self hlt] at hu
      injection hu with e
      rw [← e, hrem]
      exact h2 u thh p hth hp
    · rw [List.getElem?_set_ne (Ne.symm hut)] at hu
      exact h2 u thu p hu hp
  · intro hl
    simp only at hl
    rw [hlock] at hl; exact absurd hl (by simp)
  · intro _
    refine ⟨t, th2, ?_, hbusy2, ?_, ?_⟩
    · simp only; exact List.getElem?_set_self hlt
    · intro u thu hut hu
      simp only at hu
      rw [List.getElem?_set_ne (Ne.symm hut)] at hu
      exact hh3 u thu hut hu
    · simp only; rw [hcomp]; exact hh4

/-- The step that acquires the free lock. -/
theorem LockInv_acquire {W D : Nat} {nodes0 : List Int} {programs : List (List Op)}
    {s : Machine} {t : Nat} {op : Op} {todo : List Op}
    (hinv : LockInv W D nodes0 programs s) (hth : s.threads[t]? = some (Thread.idle (op :: todo)))
    (hlock : s.lock = false) :
    LockInv W D nodes0 programs
      (Machine.mk s.nodes true (s.threads.set t (enter W D todo op)) (s.acquired ++ [(t, op)])) := by
  obtain ⟨h1, h2, h3, h4, _⟩ := hinv
  have hlt := getElem?_lt hth
  obtain ⟨hidle, hrun⟩ := h4 hlock
  have hrem : remaining (enter W D todo op) = todo := by cases op <;> rfl
  have hbusy : isIdle (enter W D todo op) = false := by cases op <;> rfl
  refine ⟨by simp [h1], ?_, ?_, ?_, ?_⟩
  · intro u thu p hu hp
    simp only at hu
    by_cases hut : u = t
    · subst hut
      rw [List.getElem?_set_self hlt] at hu
      injection hu with e
      rw [← e, hrem]
      have := h2 u _ p hth hp
      simp only [remaining] at this
      simp only [callsOf, List.filter_append, List.map_append] at this ⊢
      simp [← this]
    · rw [List.getElem?_set_ne (Ne.symm hut)] at hu
      have := h2 u thu p hu hp
      simp only [callsOf, List.filter_append, List.map_append] at this ⊢
      have hb : (t == u) = false := beq_eq_false_iff_ne.2 (Ne.symm hut)
      have hf : List.filter (fun e => e.1 == u) [(t, op)] = [] := by
        simp [List.filter, hb]
      rw [hf]; simpa using this
  · intro e he
    simp only at he
    rcases List.mem_append.1 he with he | he
    · exact h3 e he
    · rw [List.mem_singleton.1 he]; simp only; omega
  · intro hl; simp at hl
  · intro _
    refine ⟨t, enter W D todo op, ?_, hbusy, ?_, ?_⟩
    · simp only; exact List.getElem?_set_self hlt
    · intro u thu hut hu
      simp only at hu
      rw [List.getElem?_set_ne (Ne.symm hut)] at hu
      exact hidle u thu hu
    · simp only [List.map_append, List.map_cons, List.map_nil, run, List.foldl_append,
        List.foldl_cons, List.foldl_nil]
      unfold run at hrun
      rw [← hrun]
      cases op <;> rfl

/-- The step that releases the lock. -/
theorem LockInv_release {W D : Nat} {nodes0 : List Int} {programs : List (List Op)}
    {s : Machine} {t : Nat} {todo : List Op}
    (hinv : LockInv W D nodes0 programs s) (hth : s.threads[t]? = some (Thread.releasing todo)) :
    LockInv W D nodes0 programs
      (Machine.mk s.nodes false (s.threads.set t (Thread.idle todo)) s.acquired) := by
  obtain ⟨h1, h2, h3, h4, h5⟩ := hinv
  have hlt := getElem?_lt hth
  have hlock : s.lock = true := by
    cases hl : s.lock with
    | true => rfl
    | false => have := (h4 hl).1 t _ hth; simp [isIdle] at this
  obtain ⟨h, thh, hh1, hh2, hh3, hh4⟩ := h5 hlock
  have hth_eq : t = h := by
    by_contra hne
    have := hh3 t _ hne hth
    simp [isIdle] at this
  subst hth_eq
  have hthh : thh = Thread.releasing todo := by
    rw [hth] at hh1; injection hh1 with e; exact e.symm
  subst hthh
  refine ⟨by simp [h1], ?_, h3, ?_, ?_⟩
  · intro u thu p hu hp
    simp only at hu
    by_cases hut : u = t
    · subst hut
      rw [List.getElem?_set_self hlt] at hu
      injection hu with e
      rw [← e]
      exact h2 u (Thread.releasing todo) p hth hp
    · rw [List.getElem?_set_ne (Ne.symm hut)] at hu
      exact h2 u thu p hu hp
  · intro _
    refine ⟨?_, hh4⟩
    intro u thu hu
    simp only at hu
    by_cases hut : u = t
    · subst hut
      rw [List.getElem?_set_self hlt] at hu
      injection hu with e
      rw [← e]; rfl
    · rw [List.getElem?_set_ne (Ne.symm hut)] at hu
      exact hh3 u thu hut hu
  · intro hl; simp at hl

theorem LockInv_stepThread {W D : Nat} {nodes0 : List Int} {programs : List (List Op)}
    {s : Machine} (hinv : LockInv W D nodes0 programs s) (t : Nat) :
    LockInv W D nodes0 programs (stepThread W D s t) := by
  unfold stepThread
  split
  · exact hinv
  · exact hinv
  · rename_i op todo hth
    split
    · exact hinv
    · rename_i hl
      exact LockInv_acquire hinv hth (by simpa using hl)
  · rename_i current n todo hth
    split
    · rename_i hlt
      split
      · rename_i hroot
        exact LockInv_inside hinv hth rfl rfl rfl
          (by simp only [complete]; rw [arriveLoop.eq_1 W n s.nodes current, if_pos hlt, if_pos hroot])
      · rename_i hroot
        exact LockInv_inside hinv hth rfl rfl rfl
          (by simp only [complete]; rw [arriveLoop.eq_1 W n s.nodes current, if_pos hlt, if_neg hroot])
    · rename_i hlt
      exact LockInv_inside hinv hth rfl rfl rfl
        (by simp only [complete]; rw [arriveLoop.eq_1 W n s.nodes current, if_neg hlt])
  · rename_i current mvc todo hth
    split
    · rename_i hlt
      split
      · rename_i hroot
        exact LockInv_inside hinv hth rfl rfl rfl
          (by simp only [complete]; rw [departLoop.eq_1 W s.nodes current mvc, if_pos hlt, if_pos hroot])
      · rename_i hroot
        exact LockInv_inside hinv hth rfl rfl rfl
          (by simp only [complete]; rw [departLoop.eq_1 W s.nodes current mvc, if_pos hlt, if_neg hroot])
    · rename_i hlt
      exact LockInv_inside hinv hth rfl rfl rfl
        (by simp only [complete]; rw [departLoop.eq_1 W s.nodes current mvc, if_neg hlt])
  · rename_i todo hth
    exact LockInv_release hinv hth

theorem LockInv_initMachine (W D : Nat) (nodes0 : List Int) (programs : List (List Op)) :
    LockInv W D nodes0 programs (initMachine nodes0 programs) := by
  refine ⟨by simp [initMachine], ?_, ?_, ?_, ?_⟩
  · intro t th p ht hp
    simp only [initMachine, List.getElem?_map, hp, Option.map_some'] at ht
    injection ht with e
    rw [← e]; simp [initMachine, callsOf, remaining]
  · intro e he; simp [initMachine] at he
  · intro _
    refine ⟨?_, by simp [initMachine, run]⟩
    intro t th ht
    simp only [initMachine, List.getElem?_map] at ht
    cases hp : programs[t]? with
    | none => rw [hp] at ht; simp at ht
    | some p => rw [hp] at ht; simp only [Option.map_some'] at ht; injection ht with e; rw [← e]; rfl
  · intro hl; simp [initMachine] at hl

theorem LockInv_interleave {W D : Nat} {nodes0 : List Int} {programs : List (List Op)}
    (sched : List Nat) :
    ∀ s, LockInv W D nodes0 programs s → LockInv W D nodes0 programs (interleave W D s sched) := by
  induction sched with
  | nil => intro s h; exact h
  | cons t sched ih => intro s h; exact ih _ (LockInv_stepThread h t)

/-! # The claims -/

/-- C1: `arrive` preserves the tree invariant. For every `W ≥ 1`, `D ≥ 1`,
every tree state in which each internal node's value is the minimum of the
values of its `W` direct children, every valid leaf index `i` and every
`int32_t` `n`, the state after `arrive(i, n)` has the same property. -/
theorem C1_arrive_preserves_tree_invariant (W D : Nat) (hW : 1 ≤ W) (hD : 1 ≤ D)
    (nodes : List Int) (ht : IsTree W D nodes) (hinv : TreeInv W D nodes)
    (i : Nat) (hi : i < MAX_THREADS W D) (n : Int) (_hn : IsInt32 n) :
    TreeInv W D (arrive W D nodes i n) :=
  arrive_TreeInv hW hD ht.1 hinv hi n

theorem C1_arrive_preserves_tree_invariant_witness :
    IsTree 2 3 [3, 5, 3, 5, 10, 3, 2147483647] ∧
      TreeInv 2 3 [3, 5, 3, 5, 10, 3, 2147483647] ∧
      TreeInv 2 3 (arrive 2 3 [3, 5, 3, 5, 10, 3, 2147483647] 1 4) :=
  ⟨by decide, by decide,
    C1_arrive_preserves_tree_invariant 2 3 (by decide) (by decide)
      [3, 5, 3, 5, 10, 3, 2147483647] (by decide) (by decide) 1 (by decide) 4 (by decide)⟩

/-- C2: `depart` preserves the tree invariant. For every `W ≥ 1`, `D ≥ 1`,
every tree state in which each internal node's value is the minimum of the
values of its `W` direct children, and every valid leaf index `i`, the state
after `depart(i)` has the same property: the sibling scan reads the children
of the node that is compared and overwritten next. -/
theorem C2_depart_preserves_tree_invariant (W D : Nat) (hW : 1 ≤ W) (hD : 1 ≤ D)
    (nodes : List Int) (ht : IsTree W D nodes) (hinv : TreeInv W D nodes)
    (i : Nat) (hi : i < MAX_THREADS W D) :
    TreeInv W D (depart W D nodes i) :=
  depart_TreeInv hW hD ht.1 hinv hi

theorem C2_depart_preserves_tree_invariant_witness :
    IsTree 2 3 [3, 5, 3, 5, 10, 3, 2147483647] ∧
      TreeInv 2 3 [3, 5, 3, 5, 10, 3, 2147483647] ∧
      TreeInv 2 3 (depart 2 3 [3, 5, 3, 5, 10, 3, 2147483647] 2) :=
  ⟨by decide, by decide,
    C2_depart_preserves_tree_invariant 2 3 (by decide) (by decide)
      [3, 5, 3, 5, 10, 3, 2147483647] (by decide) (by decide) 2 (by decide)⟩

/-- C3: in every state reachable from the constructed tree by `arrive` and
`depart` calls with valid leaf indices, `query()` is the minimum of the values
of all the `MAX_THREADS` leaves, and every node's value is the minimum of the
leaf values of its subtree. -/
theorem C3_reachable_nodes_are_subtree_minima (W D : Nat) (hW : 1 ≤ W) (hD : 1 ≤ D)
    (nodes : List Int) (h : Reachable W D nodes) :
    ((∀ i, i < MAX_THREADS W D → query nodes ≤ value nodes (getnode W D i)) ∧
        (∃ i, i < MAX_THREADS W D ∧ query nodes = value nodes (getnode W D i))) ∧
      (∀ x, x < NUM_NODES W D → IsSubtreeMin W D nodes x) :=
  ⟨TreeInv_query hW hD (Reachable_inv hW hD h).2.2,
    fun _ hx => TreeInv_IsSubtreeMin hW hD (Reachable_inv hW hD h).2.2 hx⟩

theorem C3_reachable_nodes_are_subtree_minima_witness :
    ((∀ i, i < MAX_THREADS 2 3 →
          query (depart 2 3 (arrive 2 3 (arrive 2 3 (construct 2 3) 0 5) 2 3) 2) ≤
            value (depart 2 3 (arrive 2 3 (arrive 2 3 (construct 2 3) 0 5) 2 3) 2)
              (getnode 2 3 i)) ∧
        (∃ i, i < MAX_THREADS 2 3 ∧
          query (depart 2 3 (arrive 2 3 (arrive 2 3 (construct 2 3) 0 5) 2 3) 2) =
            value (depart 2 3 (arrive 2 3 (arrive 2 3 (construct 2 3) 0 5) 2 3) 2)
              (getnode 2 3 i))) ∧
      (∀ x, x < NUM_NODES 2 3 →
        IsSubtreeMin 2 3 (depart 2 3 (arrive 2 3 (arrive 2 3 (construct 2 3) 0 5) 2 3) 2) x) :=
  C3_reachable_nodes_are_subtree_minima 2 3 (by decide) (by decide) _
    (Reachable.depart 2
      (Reachable.arrive 2 3 (Reachable.arrive 0 5 Reachable.init (by decide) (by decide))
        (by decide) (by decide))
      (by decide))

/-- C5: the example trace for `W = 2`, `D = 3`. On the constructed tree
`query()` is `INT_MAX`; after `arrive(0, 5)` it is 5; after `arrive(2, 3)` it
is 3; after `arrive(1, 10)` it is 3; after `depart(2)` it is 5; after
`depart(0)` it is 10. -/
theorem C5_example_trace :
    query (construct 2 3) = INT_MAX ∧
      query (run 2 3 (construct 2 3) [Op.arrive 0 5]) = 5 ∧
      query (run 2 3 (construct 2 3) [Op.arrive 0 5, Op.arrive 2 3]) = 3 ∧
      query (run 2 3 (construct 2 3) [Op.arrive 0 5, Op.arrive 2 3, Op.arrive 1 10]) = 3 ∧
      query (run 2 3 (construct 2 3)
        [Op.arrive 0 5, Op.arrive 2 3, Op.arrive 1 10, Op.depart 2]) = 5 ∧
      query (run 2 3 (construct 2 3)
        [Op.arrive 0 5, Op.arrive 2 3, Op.arrive 1 10, Op.depart 2, Op.depart 0]) = 10 := by
  simp [run, applyOp, arrive, arriveLoop, depart, departLoop, scanChildren, children, getnode,
    FIRST_LEAF, NUM_NODES, GeoSum, value, setValue, construct, parent, is_root, INT_MAX, query,
    List.range, List.range.loop]

/-- C4: for every properly matched sequence of calls from the constructed
tree (each `arrive(i, n)` has `n < INT_MAX` and a leaf that is not active, each
`depart(i)` a leaf that is active), `query()` after the sequence is the minimum
of the timestamps published by the leaves that have arrived and not departed,
and is `INT_MAX` when no leaf is active. -/
theorem C4_query_is_min_of_active (W D : Nat) (hW : 1 ≤ W) (hD : 1 ≤ D) (ops : List Op)
    (hm : properlyMatched W D (fun _ => none) ops = true) :
    (∀ i n, published ops i = some n → query (run W D (construct W D) ops) ≤ n) ∧
      ((∃ i, published ops i ≠ none) →
        ∃ i n, published ops i = some n ∧ query (run W D (construct W D) ops) = n) ∧
      ((∀ i, published ops i = none) → query (run W D (construct W D) ops) = INT_MAX) := by
  obtain ⟨_, hinv, hleaf, hact⟩ := run_properlyMatched hW hD ops (construct W D)
    (fun _ => none) (length_construct W D) (TreeInv_construct hW hD)
    (fun i hi => by
      rw [value_construct (getnode_lt_NUM_NODES hD hi)]; rfl)
    (fun i n h => by simp at h) hm
  obtain ⟨hle, j, hj, hjeq⟩ := TreeInv_query hW hD hinv
  have hlow : ∀ i n, published ops i = some n → query (run W D (construct W D) ops) ≤ n := by
    intro i n hin
    have h := hle i (hact i n hin).1
    rw [hleaf i (hact i n hin).1] at h
    unfold published at hin
    rw [hin] at h
    exact h
  have hj2 := hleaf j hj
  refine ⟨hlow, ?_, ?_⟩
  · rintro ⟨i, hi⟩
    cases hpj : published ops j with
    | some m =>
      refine ⟨j, m, hpj, ?_⟩
      unfold published at hpj
      rw [hjeq, hj2, hpj]; rfl
    | none =>
      exfalso
      cases hpi : published ops i with
      | none => exact hi hpi
      | some m =>
        have h1 := hlow i m hpi
        have h2 := (hact i m hpi).2
        unfold published at hpj
        rw [hjeq, hj2, hpj] at h1
        simp only [Option.getD_none] at h1
        omega
  · intro hnone
    have hpj := hnone j
    unfold published at hpj
    rw [hjeq, hj2, hpj]; rfl

theorem C4_query_is_min_of_active_witness :
    properlyMatched 2 3 (fun _ => none)
        [Op.arrive 0 5, Op.arrive 2 3, Op.depart 2, Op.arrive 1 10] = true ∧
      ((∀ i n, published [Op.arrive 0 5, Op.arrive 2 3, Op.depart 2, Op.arrive 1 10] i = some n →
          query (run 2 3 (construct 2 3)
            [Op.arrive 0 5, Op.arrive 2 3, Op.depart 2, Op.arrive 1 10]) ≤ n) ∧
        ((∃ i, published [Op.arrive 0 5, Op.arrive 2 3, Op.depart 2, Op.arrive 1 10] i ≠ none) →
          ∃ i n, published [Op.arrive 0 5, Op.arrive 2 3, Op.depart 2, Op.arrive 1 10] i = some n ∧
            query (run 2 3 (construct 2 3)
              [Op.arrive 0 5, Op.arrive 2 3, Op.depart 2, Op.arrive 1 10]) = n) ∧
        ((∀ i, published [Op.arrive 0 5, Op.arrive 2 3, Op.depart 2, Op.arrive 1 10] i = none) →
          query (run 2 3 (construct 2 3)
            [Op.arrive 0 5, Op.arrive 2 3, Op.depart 2, Op.arrive 1 10]) = INT_MAX)) :=
  ⟨by decide,
    C4_query_is_min_of_active 2 3 (by decide) (by decide)
      [Op.arrive 0 5, Op.arrive 2 3, Op.depart 2, Op.arrive 1 10] (by decide)⟩

/-- C6: monotonic decrease under `arrive`. For every tree state, valid leaf
index `i` and `int32_t` `n`, every node's value after `arrive(i, n)` is at most
its value before; and when the state satisfies the tree invariant and `n` is
smaller than the old root value, the root value after `arrive(i, n)` is `n`. -/
theorem C6_arrive_monotonic_decrease (W D : Nat) (hW : 1 ≤ W) (hD : 1 ≤ D)
    (nodes : List Int) (ht : IsTree W D nodes) (i : Nat) (hi : i < MAX_THREADS W D)
    (n : Int) (_hn : IsInt32 n) :
    (∀ x, value (arrive W D nodes i n) x ≤ value nodes x) ∧
      (TreeInv W D nodes → n < query nodes → query (arrive W D nodes i n) = n) := by
  refine ⟨fun x => arriveLoop_value_le W n _ nodes x, fun hinv hlt => ?_⟩
  have hleaf := getnode_lt_NUM_NODES hD hi
  unfold query arrive
  apply arriveLoop_root W n _ nodes (by rw [ht.1]; exact hleaf)
  intro a ha
  exact lt_of_lt_of_le hlt
    (TreeInv_le_of_InSubtree hW hD hinv (InSubtree_zero hW a) (by omega))

theorem C6_arrive_monotonic_decrease_witness :
    IsTree 2 3 [3, 5, 3, 5, 10, 3, 2147483647] ∧
      (∀ x, value (arrive 2 3 [3, 5, 3, 5, 10, 3, 2147483647] 1 2) x ≤
        value [3, 5, 3, 5, 10, 3, 2147483647] x) ∧
      query (arrive 2 3 [3, 5, 3, 5, 10, 3, 2147483647] 1 2) = 2 :=
  ⟨by decide,
    (C6_arrive_monotonic_decrease 2 3 (by decide) (by decide) [3, 5, 3, 5, 10, 3, 2147483647]
      (by decide) 1 (by decide) 2 (by decide)).1,
    (C6_arrive_monotonic_decrease 2 3 (by decide) (by decide) [3, 5, 3, 5, 10, 3, 2147483647]
      (by decide) 1 (by decide) 2 (by decide)).2 (by decide) (by decide)⟩

/-- C7: full departure reaches infinity. For every state reachable from the
constructed tree, after additionally calling `depart` on every leaf that holds
a value below `INT_MAX` (the list `ls` names these leaves in any order),
`query()` returns `INT_MAX` and every node of the tree holds `INT_MAX`. -/
theorem C7_full_departure_reaches_infinity (W D : Nat) (hW : 1 ≤ W) (hD : 1 ≤ D)
    (nodes : List Int) (h : Reachable W D nodes) (ls : List Nat)
    (hvalid : ∀ i, i ∈ ls → i < MAX_THREADS W D)
    (hall : ∀ i, i < MAX_THREADS W D → value nodes (getnode W D i) < INT_MAX → i ∈ ls) :
    query (ls.foldl (depart W D) nodes) = INT_MAX ∧
      (∀ x, x < NUM_NODES W D → value (ls.foldl (depart W D) nodes) x = INT_MAX) := by
  obtain ⟨h1, h2, h3⟩ := Reachable_inv hW hD h
  obtain ⟨_, r2, r3⟩ := departs_all hW hD ls nodes h1 h2 h3 hvalid
  have hnodes : ∀ x, x < NUM_NODES W D → value (ls.foldl (depart W D) nodes) x = INT_MAX := by
    intro x hx
    obtain ⟨l, hl, _, hval⟩ := (TreeInv_IsSubtreeMin hW hD r2 hx).2
    obtain ⟨i, hi, rfl⟩ := exists_getnode_of_is_leaf hD hl
    rw [hval]
    apply r3 i hi
    by_cases hlt : value nodes (getnode W D i) < INT_MAX
    · exact Or.inl (hall i hi hlt)
    · have := (IsInt32_value h2 (getnode W D i)).2
      exact Or.inr (by omega)
  exact ⟨hnodes 0 (NUM_NODES_pos hD), hnodes⟩

theorem C7_full_departure_reaches_infinity_witness :
    query ([2, 0].foldl (depart 2 3) (arrive 2 3 (arrive 2 3 (construct 2 3) 0 5) 2 3)) =
        INT_MAX ∧
      (∀ x, x < NUM_NODES 2 3 →
        value ([2, 0].foldl (depart 2 3) (arrive 2 3 (arrive 2 3 (construct 2 3) 0 5) 2 3)) x =
          INT_MAX) :=
  C7_full_departure_reaches_infinity 2 3 (by decide) (by decide) _
    (Reachable.arrive 2 3 (Reachable.arrive 0 5 Reachable.init (by decide) (by decide))
      (by decide) (by decide))
    [2, 0] (by decide)
    (by
      intro i hi hlt
      have hi4 : i < 4 := hi
      have hcases : i = 0 ∨ i = 1 ∨ i = 2 ∨ i = 3 := by omega
      rcases hcases with rfl | rfl | rfl | rfl
      · simp
      · exfalso; revert hlt
        simp [arrive, arriveLoop, getnode, FIRST_LEAF, NUM_NODES, GeoSum, value, setValue,
          construct, parent, is_root, INT_MAX]
      · simp
      · exfalso; revert hlt
        simp [arrive, arriveLoop, getnode, FIRST_LEAF, NUM_NODES, GeoSum, value, setValue,
          construct, parent, is_root, INT_MAX])

/-- C8: `arrive` with a non-improving value does nothing. For every tree
state, valid leaf index `i` and `int32_t` `n` that is greater than or equal to
the current value of the leaf `i`, the state after `arrive(i, n)` is the state
before, at every node. -/
theorem C8_arrive_non_improving_is_noop (W D : Nat) (nodes : List Int)
    (_ht : IsTree W D nodes) (i : Nat) (_hi : i < MAX_THREADS W D) (n : Int) (_hn : IsInt32 n)
    (hge : value nodes (getnode W D i) ≤ n) :
    arrive W D nodes i n = nodes := by
  unfold arrive
  rw [arriveLoop, if_neg (not_lt.mpr hge)]

theorem C8_arrive_non_improving_is_noop_witness :
    IsTree 2 3 [3, 5, 3, 5, 10, 3, 2147483647] ∧
      value [3, 5, 3, 5, 10, 3, 2147483647] (getnode 2 3 1) ≤ 12 ∧
      arrive 2 3 [3, 5, 3, 5, 10, 3, 2147483647] 1 12 = [3, 5, 3, 5, 10, 3, 2147483647] :=
  ⟨by decide, by decide,
    C8_arrive_non_improving_is_noop 2 3 [3, 5, 3, 5, 10, 3, 2147483647] (by decide) 1
      (by decide) 12 (by decide) (by decide)⟩

/-- C9: an unmatched `depart` is harmless. For every tree state and valid
leaf index `i` whose leaf value is already `INT_MAX`, the state after
`depart(i)` is the state before, at every node; consequently `depart(i)`
followed by `depart(i)` equals a single `depart(i)`. -/
theorem C9_unmatched_depart_is_noop (W D : Nat) (hD : 1 ≤ D) (nodes : List Int)
    (ht : IsTree W D nodes) (i : Nat) (hi : i < MAX_THREADS W D) :
    (value nodes (getnode W D i) = INT_MAX → depart W D nodes i = nodes) ∧
      depart W D (depart W D nodes i) i = depart W D nodes i := by
  have hnoop : ∀ s : List Int, value s (getnode W D i) = INT_MAX → depart W D s i = s := by
    intro s hs
    unfold depart
    rw [departLoop, if_neg (by rw [hs]; exact lt_irrefl _)]
  exact ⟨hnoop nodes,
    hnoop _ (depart_value_leaf hD ht.1 hi (IsInt32_value ht.2 _).2)⟩

theorem C9_unmatched_depart_is_noop_witness :
    IsTree 2 3 [3, 5, 3, 5, 10, 3, 2147483647] ∧
      depart 2 3 [3, 5, 3, 5, 10, 3, 2147483647] 3 = [3, 5, 3, 5, 10, 3, 2147483647] ∧
      depart 2 3 (depart 2 3 [3, 5, 3, 5, 10, 3, 2147483647] 3) 3 =
        depart 2 3 [3, 5, 3, 5, 10, 3, 2147483647] 3 :=
  ⟨by decide,
    (C9_unmatched_depart_is_noop 2 3 (by decide) [3, 5, 3, 5, 10, 3, 2147483647] (by decide) 3
      (by decide)).1 (by decide),
    (C9_unmatched_depart_is_noop 2 3 (by decide) [3, 5, 3, 5, 10, 3, 2147483647] (by decide) 3
      (by decide)).2⟩

/-- C10: `depart` retracts exactly one leaf. For every tree state (of any
depth `D ≥ 1`, in particular `D ≥ 2`) and every valid leaf index `i`, after
`depart(i)` the value of the leaf `i` is `INT_MAX` and the value of every other
leaf `j ≠ i` is unchanged; likewise `arrive(i, n)` changes no leaf other than
the leaf `i`. -/
theorem C10_depart_retracts_exactly_one_leaf (W D : Nat) (hW : 1 ≤ W) (hD : 1 ≤ D)
    (nodes : List Int) (ht : IsTree W D nodes) (i : Nat) (hi : i < MAX_THREADS W D) :
    (value (depart W D nodes i) (getnode W D i) = INT_MAX ∧
        ∀ j, j < MAX_THREADS W D → j ≠ i →
          value (depart W D nodes i) (getnode W D j) = value nodes (getnode W D j)) ∧
      (∀ n, IsInt32 n → ∀ j, j < MAX_THREADS W D → j ≠ i →
          value (arrive W D nodes i n) (getnode W D j) = value nodes (getnode W D j)) := by
  refine ⟨⟨depart_value_leaf hD ht.1 hi (IsInt32_value ht.2 _).2, fun j _ hji => ?_⟩,
    fun n _ j _ hji => ?_⟩
  · exact depart_value_other_leaf hW hD nodes hi (FIRST_LEAF_le_getnode W D j)
      (by unfold getnode; omega)
  · exact arrive_value_other_leaf hW hD nodes hi n (FIRST_LEAF_le_getnode W D j)
      (by unfold getnode; omega)

theorem C10_depart_retracts_exactly_one_leaf_witness :
    IsTree 2 3 [3, 5, 3, 5, 10, 3, 2147483647] ∧
      value (depart 2 3 [3, 5, 3, 5, 10, 3, 2147483647] 2) (getnode 2 3 2) = INT_MAX ∧
      value (depart 2 3 [3, 5, 3, 5, 10, 3, 2147483647] 2) (getnode 2 3 0) =
        value [3, 5, 3, 5, 10, 3, 2147483647] (getnode 2 3 0) ∧
      value (arrive 2 3 [3, 5, 3, 5, 10, 3, 2147483647] 2 1) (getnode 2 3 0) =
        value [3, 5, 3, 5, 10, 3, 2147483647] (getnode 2 3 0) :=
  ⟨by decide,
    (C10_depart_retracts_exactly_one_leaf 2 3 (by decide) (by decide)
      [3, 5, 3, 5, 10, 3, 2147483647] (by decide) 2 (by decide)).1.1,
    (C10_depart_retracts_exactly_one_leaf 2 3 (by decide) (by decide)
      [3, 5, 3, 5, 10, 3, 2147483647] (by decide) 2 (by decide)).1.2 0 (by decide) (by decide),
    (C10_depart_retracts_exactly_one_leaf 2 3 (by decide) (by decide)
      [3, 5, 3, 5, 10, 3, 2147483647] (by decide) 2 (by decide)).2 1 (by decide) 0 (by decide)
      (by decide)⟩

/-- C11: navigation is consistent. For every `W ≥ 1`, with
`children(i) = i*W + 1` and `parent(j) = (j - 1) / W`: for every node index `i`
and every `k < W`, `parent(children(i) + k) = i`; and for every index `j > 0`,
`j` lies in `[parent(j)*W + 1, parent(j)*W + W]` and `parent(j) < j`. -/
theorem C11_navigation_consistent (W : Nat) (hW : 1 ≤ W) :
    (∀ i, children W i = i * W + 1) ∧ (∀ j, parent W j = (j - 1) / W) ∧
      (∀ i k, k < W → parent W (children W i + k) = i) ∧
      (∀ j, 0 < j →
        parent W j * W + 1 ≤ j ∧ j ≤ parent W j * W + W ∧ parent W j < j) := by
  refine ⟨fun _ => rfl, fun _ => rfl, fun i k hk => parent_children hW i hk, fun j hj => ?_⟩
  obtain ⟨k, hk, hjk⟩ := child_of_parent hW hj
  have hc : children W (parent W j) = parent W j * W + 1 := rfl
  exact ⟨by omega, by omega, parent_lt_self hj⟩

theorem C11_navigation_consistent_witness :
    parent 3 (children 3 4 + 2) = 4 ∧
      (parent 3 15 * 3 + 1 ≤ 15 ∧ 15 ≤ parent 3 15 * 3 + 3 ∧ parent 3 15 < 15) :=
  ⟨(C11_navigation_consistent 3 (by decide)).2.2.1 4 2 (by decide),
    (C11_navigation_consistent 3 (by decide)).2.2.2 15 (by decide)⟩

/-- C12: the leaf slots are exactly the last level. With
`NUM_NODES = 1 + W + ... + W^(D-1)`, `FIRST_LEAF = 1 + W + ... + W^(D-2)` and
`MAX_THREADS = W^(D-1)`, for every `W ≥ 1` and `D ≥ 1`,
`FIRST_LEAF + MAX_THREADS = NUM_NODES`, so that for every integer `index` the
node `getnode(index)` satisfies `is_leaf` exactly when
`0 ≤ index < MAX_THREADS`. -/
theorem C12_leaf_slots_are_last_level (W D : Nat) (_hW : 1 ≤ W) (hD : 1 ≤ D) :
    (NUM_NODES W D = ∑ k ∈ Finset.range D, W ^ k ∧
        FIRST_LEAF W D = ∑ k ∈ Finset.range (D - 1), W ^ k ∧
        MAX_THREADS W D = W ^ (D - 1)) ∧
      FIRST_LEAF W D + MAX_THREADS W D = NUM_NODES W D ∧
      (∀ index : Int, is_leafInt W D (getnodeInt W D index) = true ↔
        0 ≤ index ∧ index < (MAX_THREADS W D : Int)) ∧
      (∀ i : Nat, is_leaf W D (getnode W D i) = true ↔ i < MAX_THREADS W D) := by
  have hsum : ∀ m, GeoSum 1 W m = ∑ k ∈ Finset.range m, W ^ k := by
    intro m
    induction m with
    | zero => simp [GeoSum]
    | succ m ih => rw [Finset.sum_range_succ, ← ih]; simp [GeoSum]
  have hadd := NUM_NODES_eq_add (W := W) hD
  refine ⟨⟨hsum D, hsum (D - 1), rfl⟩, hadd.symm, fun index => ?_, fun i => ?_⟩
  · simp only [is_leafInt, getnodeInt, Bool.and_eq_true, decide_eq_true_eq]
    rw [hadd]; push_cast; constructor <;> intro h <;> constructor <;> omega
  · rw [is_leaf_iff, hadd]; unfold getnode; constructor <;> intro h <;> omega

theorem C12_leaf_slots_are_last_level_witness :
    FIRST_LEAF 2 3 + MAX_THREADS 2 3 = NUM_NODES 2 3 ∧
      (is_leafInt 2 3 (getnodeInt 2 3 (-1)) = true ↔
        (0 : Int) ≤ -1 ∧ (-1 : Int) < (MAX_THREADS 2 3 : Int)) :=
  ⟨(C12_leaf_slots_are_last_level 2 3 (by decide) (by decide)).2.1,
    (C12_leaf_slots_are_last_level 2 3 (by decide) (by decide)).2.2.1 (-1)⟩

/-- C13 (as stated, refuted): `query()` reads `nodes[0].value` without having
acquired the tree-wide lock, so not every read of the three public operations
happens between an acquire and a release. -/
theorem C13_query_reads_without_lock : insideLock false queryTrace = false := by
  decide

/-- C13 (amended): modelling the tree lock as explicit state, every read and
every write of a node's value made by `arrive` and by `depart` happens after
the operation has acquired the tree-wide lock and before it releases it;
`query` makes one read, of the root's value, and no call on the lock. -/
theorem C13_arrive_depart_inside_lock (W D : Nat) (nodes : List Int) (i : Nat) (n : Int) :
    insideLock false (arriveTrace W D nodes i n) = true ∧
      insideLock false (departTrace W D nodes i) = true ∧
      queryTrace = [Event.read 0] := by
  refine ⟨?_, ?_, rfl⟩
  · unfold arriveTrace
    simp only [insideLock]
    rw [insideLock_append_of_access _ _ (fun e he => by
      obtain ⟨x, _, hx⟩ := arriveLoopTrace_mem W n _ nodes e he
      exact ⟨x, hx⟩)]
    rfl
  · unfold departTrace
    simp only [insideLock]
    rw [insideLock_append_of_access _ _ (fun e he => by
      obtain ⟨x, hx | ⟨hx, _⟩⟩ := departLoopTrace_access W _ nodes _ e he
      · exact ⟨x, Or.inl hx⟩
      · exact ⟨x, Or.inr hx⟩)]
    rfl

/-- C17: no out-of-bounds node access for valid leaves. For every `W ≥ 1`,
`D ≥ 1`, every tree state and every leaf index `i < MAX_THREADS`, every node
index that `arrive(i, n)` or `depart(i)` reads or writes lies in
`[0, NUM_NODES)`: the starting leaf, every parent reached and all the children
scanned by `depart`; and every node `depart` writes besides the leaf is an
internal node, below `FIRST_LEAF`. -/
theorem C17_no_out_of_bounds_access (W D : Nat) (hW : 1 ≤ W) (hD : 1 ≤ D)
    (nodes : List Int) (_ht : IsTree W D nodes) (i : Nat) (hi : i < MAX_THREADS W D)
    (n : Int) :
    (∀ x, (Event.read x ∈ arriveTrace W D nodes i n ∨
          Event.write x ∈ arriveTrace W D nodes i n) → x < NUM_NODES W D) ∧
      (∀ x, (Event.read x ∈ departTrace W D nodes i ∨
          Event.write x ∈ departTrace W D nodes i) → x < NUM_NODES W D) ∧
      (∀ x, Event.write x ∈ departTrace W D nodes i →
          x = getnode W D i ∨ x < FIRST_LEAF W D) := by
  have hleaf := getnode_lt_NUM_NODES hD hi
  have harr : ∀ e, e ∈ arriveTrace W D nodes i n →
      e = Event.acquire ∨ e = Event.release ∨ e ∈ arriveLoopTrace W n nodes (getnode W D i) := by
    intro e he
    unfold arriveTrace at he
    rcases List.mem_cons.1 he with h | h
    · exact Or.inl h
    · rcases List.mem_append.1 h with h | h
      · exact Or.inr (Or.inr h)
      · exact Or.inr (Or.inl (List.mem_singleton.1 h))
  have hdep : ∀ e, e ∈ departTrace W D nodes i →
      e = Event.acquire ∨ e = Event.release ∨
        e ∈ departLoopTrace W nodes (getnode W D i) INT_MAX := by
    intro e he
    unfold departTrace at he
    rcases List.mem_cons.1 he with h | h
    · exact Or.inl h
    · rcases List.mem_append.1 h with h | h
      · exact Or.inr (Or.inr h)
      · exact Or.inr (Or.inl (List.mem_singleton.1 h))
  have harr2 : ∀ e x, (e = Event.read x ∨ e = Event.write x) →
      e ∈ arriveTrace W D nodes i n → x < NUM_NODES W D := by
    intro e x hex he
    rcases harr e he with h | h | h
    · rcases hex with hex | hex <;> rw [hex] at h <;> exact absurd h (by simp)
    · rcases hex with hex | hex <;> rw [hex] at h <;> exact absurd h (by simp)
    · obtain ⟨y, hy, hye⟩ := arriveLoopTrace_mem W n _ nodes e h
      have : x = y := by
        rcases hex with hex | hex <;> rcases hye with hye | hye <;> rw [hex] at hye <;>
          injection hye
      omega
  have hdep2 : ∀ e x, (e = Event.read x ∨ e = Event.write x) →
      e ∈ departTrace W D nodes i → x < NUM_NODES W D := by
    intro e x hex he
    rcases hdep e he with h | h | h
    · rcases hex with hex | hex <;> rw [hex] at h <;> exact absurd h (by simp)
    · rcases hex with hex | hex <;> rw [hex] at h <;> exact absurd h (by simp)
    · obtain ⟨y, hy, hye⟩ := departLoopTrace_mem hW hD _ nodes _ e hleaf h
      have : x = y := by
        rcases hex with hex | hex <;> rcases hye with hye | ⟨hye, _⟩ <;> rw [hex] at hye <;>
          injection hye
      omega
  refine ⟨fun x hx => ?_, fun x hx => ?_, fun x hx => ?_⟩
  · rcases hx with hx | hx
    · exact harr2 _ x (Or.inl rfl) hx
    · exact harr2 _ x (Or.inr rfl) hx
  · rcases hx with hx | hx
    · exact hdep2 _ x (Or.inl rfl) hx
    · exact hdep2 _ x (Or.inr rfl) hx
  · rcases hdep _ hx with h | h | h
    · exact absurd h (by simp)
    · exact absurd h (by simp)
    · rcases departLoopTrace_write h with h | ⟨h0, hle⟩
      · exact Or.inl h
      · have := parent_lt_FIRST_LEAF hW hD h0 hleaf
        exact Or.inr (by omega)

theorem C17_no_out_of_bounds_access_witness :
    IsTree 2 3 [3, 5, 3, 5, 10, 3, 2147483647] ∧
      (∀ x, (Event.read x ∈ arriveTrace 2 3 [3, 5, 3, 5, 10, 3, 2147483647] 1 2 ∨
          Event.write x ∈ arriveTrace 2 3 [3, 5, 3, 5, 10, 3, 2147483647] 1 2) →
        x < NUM_NODES 2 3) ∧
      (∀ x, (Event.read x ∈ departTrace 2 3 [3, 5, 3, 5, 10, 3, 2147483647] 2 ∨
          Event.write x ∈ departTrace 2 3 [3, 5, 3, 5, 10, 3, 2147483647] 2) →
        x < NUM_NODES 2 3) :=
  ⟨by decide,
    (C17_no_out_of_bounds_access 2 3 (by decide) (by decide) [3, 5, 3, 5, 10, 3, 2147483647]
      (by decide) 1 (by decide) 2).1,
    (C17_no_out_of_bounds_access 2 3 (by decide) (by decide) [3, 5, 3, 5, 10, 3, 2147483647]
      (by decide) 2 (by decide) 2).2.1⟩

/-- C20: `arrive` and `depart` terminate on every tree state, whether or not
it satisfies the tree invariant. Each loop iteration stops or moves from a
node `j > 0` to `parent(j) < j`; applying `parent` exactly `D - 1` times to a
leaf index in `[FIRST_LEAF, NUM_NODES)` yields the root index 0, and fewer
applications do not; so each loop body runs at most `D` times. -/
theorem C20_loops_terminate (W D : Nat) (hW : 1 ≤ W) (hD : 1 ≤ D) :
    (∀ j, 0 < j → parent W j < j) ∧
      (∀ l, FIRST_LEAF W D ≤ l → l < NUM_NODES W D →
        (parent W)^[D - 1] l = 0 ∧ ∀ k, k < D - 1 → 0 < (parent W)^[k] l) ∧
      (∀ (nodes : List Int) (i : Nat) (n : Int), i < MAX_THREADS W D →
        bodyRuns (arriveTrace W D nodes i n) ≤ D) ∧
      (∀ (nodes : List Int) (i : Nat), i < MAX_THREADS W D →
        bodyRuns (departTrace W D nodes i) ≤ D) := by
  obtain ⟨d, rfl⟩ : ∃ d, D = d + 1 := ⟨D - 1, by omega⟩
  refine ⟨fun j hj => parent_lt_self hj, fun l hl1 hl2 => ⟨?_, fun k hk => ?_⟩,
    fun nodes i n hi => ?_, fun nodes i hi => ?_⟩
  · exact parent_iterate_eq_zero hW d l hl2
  · simp only [Nat.add_sub_cancel] at hk
    have h1 : GeoSum 1 W (d - k + k) ≤ l := by
      have : d - k + k = d := by omega
      rw [this]; exact hl1
    have h2 := GeoSum_le_parent_iterate hW k (d - k) l h1
    obtain ⟨m, hm⟩ : ∃ m, d - k = m + 1 := ⟨d - k - 1, by omega⟩
    rw [hm, GeoSum_one_succ] at h2
    omega
  · have hleaf : getnode W (d + 1) i < GeoSum 1 W (d + 1) :=
      getnode_lt_NUM_NODES (by omega) hi
    have := bodyRuns_arriveLoopTrace hW n d nodes _ hleaf
    unfold arriveTrace
    simp only [bodyRuns, bodyRuns_append]
    omega
  · have hleaf : getnode W (d + 1) i < GeoSum 1 W (d + 1) :=
      getnode_lt_NUM_NODES (by omega) hi
    have := bodyRuns_departLoopTrace hW d nodes _ INT_MAX hleaf
    unfold departTrace
    simp only [bodyRuns, bodyRuns_append]
    omega

theorem C20_loops_terminate_witness :
    parent 2 5 < 5 ∧ (parent 2)^[3 - 1] 5 = 0 ∧
      bodyRuns (arriveTrace 2 3 [7, 5, 3, 5, 10, 3, 2147483647] 1 2) ≤ 3 ∧
      bodyRuns (departTrace 2 3 [7, 5, 3, 5, 10, 3, 2147483647] 2) ≤ 3 :=
  ⟨(C20_loops_terminate 2 3 (by decide) (by decide)).1 5 (by decide),
    ((C20_loops_terminate 2 3 (by decide) (by decide)).2.1 5 (by decide) (by decide)).1,
    (C20_loops_terminate 2 3 (by decide) (by decide)).2.2.1 _ 1 2 (by decide),
    (C20_loops_terminate 2 3 (by decide) (by decide)).2.2.2 _ 2 (by decide)⟩

/-- C15: the exact effect of `arrive`. For every tree state satisfying the
tree invariant, valid leaf index `i` and `int32_t` `n`, after `arrive(i, n)`
every node `x` on the path from the leaf `i` up to the root (inclusive) holds
the smaller of its old value and `n`, and every node off that path keeps its
old value: stopping at the first path node whose value is already at most `n`
loses no update higher up. -/
theorem C15_arrive_exact_effect (W D : Nat) (hW : 1 ≤ W) (hD : 1 ≤ D) (nodes : List Int)
    (ht : IsTree W D nodes) (hinv : TreeInv W D nodes) (i : Nat) (hi : i < MAX_THREADS W D)
    (n : Int) (_hn : IsInt32 n) :
    ∀ x, x < NUM_NODES W D →
      (InSubtree W x (getnode W D i) →
          value (arrive W D nodes i n) x = min (value nodes x) n) ∧
        (¬ InSubtree W x (getnode W D i) → value (arrive W D nodes i n) x = value nodes x) := by
  intro x _
  have hleaf := getnode_lt_NUM_NODES hD hi
  refine ⟨fun hx => ?_, fun hx => arriveLoop_value_off_path hW n _ nodes hx⟩
  unfold arrive
  apply arriveLoop_value_on_path hW n _ nodes (by rw [ht.1]; exact hleaf) _ x hx
  intro a b hab hb
  have := InSubtree_le hW hb
  exact TreeInv_le_of_InSubtree hW hD hinv hab (by omega)

theorem C15_arrive_exact_effect_witness :
    IsTree 2 3 [3, 5, 3, 5, 10, 3, 2147483647] ∧ TreeInv 2 3 [3, 5, 3, 5, 10, 3, 2147483647] ∧
      value (arrive 2 3 [3, 5, 3, 5, 10, 3, 2147483647] 1 4) 1 =
        min (value [3, 5, 3, 5, 10, 3, 2147483647] 1) 4 :=
  ⟨by decide, by decide,
    ((C15_arrive_exact_effect 2 3 (by decide) (by decide) [3, 5, 3, 5, 10, 3, 2147483647]
      (by decide) (by decide) 1 (by decide) 4 (by decide)) 1 (by decide)).1
      (InSubtree.child (y := 1) (k := 1) InSubtree.root (by decide))⟩

/-- C16: the tree refines the flat per-leaf minimum model, unmatched arrivals
included. The abstract state is an array `a` of `MAX_THREADS` values, all
`INT_MAX` at first; `arrive(i, n)` sets `a[i] := min(a[i], n)` and `depart(i)`
sets `a[i] := INT_MAX`. For every finite sequence of calls with valid indices
on the constructed tree, the value of each leaf `i` is `a[i]` and `query()` is
the minimum of `a`; in particular a second `arrive` on the same leaf with a
larger value, with no `depart` in between, changes nothing and leaves the
earlier smaller value in place. -/
theorem C16_tree_refines_flat_model (W D : Nat) (hW : 1 ≤ W) (hD : 1 ≤ D) (ops : List Op)
    (hvalid : ∀ op, op ∈ ops → validOp W D op = true) :
    (∀ i, i < MAX_THREADS W D →
        value (run W D (construct W D) ops) (getnode W D i) =
          value (flatRun (flatInit W D) ops) i) ∧
      ((∀ i, i < MAX_THREADS W D →
          query (run W D (construct W D) ops) ≤ value (flatRun (flatInit W D) ops) i) ∧
        (∃ i, i < MAX_THREADS W D ∧
          query (run W D (construct W D) ops) = value (flatRun (flatInit W D) ops) i)) ∧
      (∀ i n m, i < MAX_THREADS W D → n ≤ m →
        run W D (construct W D) (ops ++ [Op.arrive i n, Op.arrive i m]) =
            run W D (construct W D) (ops ++ [Op.arrive i n]) ∧
          value (run W D (construct W D) (ops ++ [Op.arrive i n, Op.arrive i m]))
            (getnode W D i) ≤ n) := by
  obtain ⟨r1, _, r3, _, r5⟩ := run_refines_flat hW hD ops (construct W D) (flatInit W D)
    (length_construct W D) (Int32Values_construct W D) (TreeInv_construct hW hD)
    (by simp [flatInit])
    (fun i hi => by
      rw [value_construct (getnode_lt_NUM_NODES hD hi), value_flatInit hi]) hvalid
  obtain ⟨q1, j, hj, q2⟩ := TreeInv_query hW hD r3
  refine ⟨r5, ⟨fun i hi => by rw [← r5 i hi]; exact q1 i hi, j, hj, by rw [← r5 j hj]; exact q2⟩,
    fun i n m hi hnm => ?_⟩
  have hsecond : run W D (construct W D) (ops ++ [Op.arrive i n, Op.arrive i m]) =
      run W D (construct W D) (ops ++ [Op.arrive i n]) := by
    simp only [run, List.foldl_append, List.foldl_cons, List.foldl_nil, applyOp]
    have hleaf := arrive_value_leaf hD r1 hi n
    unfold run at hleaf
    rw [arrive.eq_1 W D (arrive W D _ i n) i m, arriveLoop, if_neg]
    rw [hleaf]
    have := min_le_right (value (List.foldl (applyOp W D) (construct W D) ops) (getnode W D i)) n
    omega
  refine ⟨hsecond, ?_⟩
  rw [hsecond]
  simp only [run, List.foldl_append, List.foldl_cons, List.foldl_nil, applyOp]
  have hleaf := arrive_value_leaf hD r1 hi n
  unfold run at hleaf
  rw [hleaf]
  exact min_le_right _ _

theorem C16_tree_refines_flat_model_witness :
    (∀ i, i < MAX_THREADS 2 3 →
        value (run 2 3 (construct 2 3) [Op.arrive 0 5, Op.arrive 0 9, Op.depart 2])
            (getnode 2 3 i) =
          value (flatRun (flatInit 2 3) [Op.arrive 0 5, Op.arrive 0 9, Op.depart 2]) i) ∧
      (∃ i, i < MAX_THREADS 2 3 ∧
        query (run 2 3 (construct 2 3) [Op.arrive 0 5, Op.arrive 0 9, Op.depart 2]) =
          value (flatRun (flatInit 2 3) [Op.arrive 0 5, Op.arrive 0 9, Op.depart 2]) i) :=
  ⟨(C16_tree_refines_flat_model 2 3 (by decide) (by decide)
      [Op.arrive 0 5, Op.arrive 0 9, Op.depart 2] (by decide)).1,
    (C16_tree_refines_flat_model 2 3 (by decide) (by decide)
      [Op.arrive 0 5, Op.arrive 0 9, Op.depart 2] (by decide)).2.1.2⟩

/-- C18: `arrive` followed by `depart` is a round trip. For every tree state
satisfying the tree invariant, every valid leaf index `i` whose leaf value is
`INT_MAX` and every `int32_t` `n`, the state after `arrive(i, n)` followed by
`depart(i)` is the original state, at every node. -/
theorem C18_arrive_depart_round_trip (W D : Nat) (hW : 1 ≤ W) (hD : 1 ≤ D) (nodes : List Int)
    (ht : IsTree W D nodes) (hinv : TreeInv W D nodes) (i : Nat) (hi : i < MAX_THREADS W D)
    (hleaf : value nodes (getnode W D i) = INT_MAX) (n : Int) (hn : IsInt32 n) :
    depart W D (arrive W D nodes i n) i = nodes := by
  have hl1 : (arrive W D nodes i n).length = NUM_NODES W D := by rw [length_arrive, ht.1]
  apply TreeInv_ext hW hD (by rw [length_depart, hl1]) ht.1
    (depart_TreeInv hW hD hl1 (arrive_TreeInv hW hD ht.1 hinv hi n) hi) hinv
  intro j hj
  by_cases hji : j = i
  · subst hji
    rw [depart_value_leaf hD hl1 hj
      (IsInt32_value (Int32Values_arrive W D ht.2 j hn) _).2, hleaf]
  · rw [depart_value_other_leaf hW hD _ hi (FIRST_LEAF_le_getnode W D j) (getnode_ne hji),
      arrive_value_other_leaf hW hD nodes hi n (FIRST_LEAF_le_getnode W D j) (getnode_ne hji)]

theorem C18_arrive_depart_round_trip_witness :
    IsTree 2 3 [3, 5, 3, 5, 10, 3, 2147483647] ∧ TreeInv 2 3 [3, 5, 3, 5, 10, 3, 2147483647] ∧
      value [3, 5, 3, 5, 10, 3, 2147483647] (getnode 2 3 3) = INT_MAX ∧
      depart 2 3 (arrive 2 3 [3, 5, 3, 5, 10, 3, 2147483647] 3 1) 3 =
        [3, 5, 3, 5, 10, 3, 2147483647] :=
  ⟨by decide, by decide, by decide,
    C18_arrive_depart_round_trip 2 3 (by decide) (by decide) [3, 5, 3, 5, 10, 3, 2147483647]
      (by decide) (by decide) 3 (by decide) (by decide) 1 (by decide)⟩

/-- C19: operations on distinct leaves commute. For every tree state
satisfying the tree invariant and every two calls `op1` on a leaf `i` and `op2`
on a leaf `j ≠ i` (both valid; each an `arrive` with any `int32_t` value or a
`depart`), the order `op1; op2` yields the same value at every node as the
order `op2; op1`. -/
theorem C19_distinct_leaves_commute (W D : Nat) (hW : 1 ≤ W) (hD : 1 ≤ D) (nodes : List Int)
    (ht : IsTree W D nodes) (hinv : TreeInv W D nodes) (op1 op2 : Op)
    (h1 : validOp W D op1 = true) (h2 : validOp W D op2 = true)
    (hne : opIndex op1 ≠ opIndex op2) :
    applyOp W D (applyOp W D nodes op1) op2 = applyOp W D (applyOp W D nodes op2) op1 := by
  have l1 : (applyOp W D nodes op1).length = NUM_NODES W D := by rw [applyOp_length, ht.1]
  have l2 : (applyOp W D nodes op2).length = NUM_NODES W D := by rw [applyOp_length, ht.1]
  have v1 := applyOp_Int32Values hW ht.2 h1
  have v2 := applyOp_Int32Values hW ht.2 h2
  have t1 := applyOp_TreeInv hW hD ht.1 hinv h1
  have t2 := applyOp_TreeInv hW hD ht.1 hinv h2
  apply TreeInv_ext hW hD (by rw [applyOp_length, l1]) (by rw [applyOp_length, l2])
    (applyOp_TreeInv hW hD l1 t1 h2) (applyOp_TreeInv hW hD l2 t2 h1)
  intro k _
  by_cases hk1 : k = opIndex op1
  · subst hk1
    rw [applyOp_value_other_leaf hW hD _ h2 hne]
    exact applyOp_value_leaf_congr hD ht.1 l2 ht.2 v2 h1
      (applyOp_value_other_leaf hW hD nodes h2 hne).symm
  · by_cases hk2 : k = opIndex op2
    · subst hk2
      rw [applyOp_value_other_leaf hW hD _ h1 hk1]
      exact applyOp_value_leaf_congr hD l1 ht.1 v1 ht.2 h2
        (applyOp_value_other_leaf hW hD nodes h1 hk1)
    · rw [applyOp_value_other_leaf hW hD _ h2 hk2, applyOp_value_other_leaf hW hD _ h1 hk1,
        applyOp_value_other_leaf hW hD _ h1 hk1, applyOp_value_other_leaf hW hD _ h2 hk2]

theorem C19_distinct_leaves_commute_witness :
    IsTree 2 3 [3, 5, 3, 5, 10, 3, 2147483647] ∧ TreeInv 2 3 [3, 5, 3, 5, 10, 3, 2147483647] ∧
      applyOp 2 3 (applyOp 2 3 [3, 5, 3, 5, 10, 3, 2147483647] (Op.arrive 3 1)) (Op.depart 2) =
        applyOp 2 3 (applyOp 2 3 [3, 5, 3, 5, 10, 3, 2147483647] (Op.depart 2)) (Op.arrive 3 1) :=
  ⟨by decide, by decide,
    C19_distinct_leaves_commute 2 3 (by decide) (by decide) [3, 5, 3, 5, 10, 3, 2147483647]
      (by decide) (by decide) (Op.arrive 3 1) (Op.depart 2) (by decide) (by decide)
      (by decide)⟩

/-- C14: linearizability. For any interleaving `sched` of the steps of `N`
threads, each making `arrive` and `depart` calls under the tree-wide lock, once
every thread has made all its calls the tree state is the state produced by
running the same calls sequentially in the order in which they acquired the
lock; that history holds the calls of every thread, in the order of its
program, and nothing else. -/
theorem C14_lock_order_linearization (W D : Nat) (nodes0 : List Int)
    (programs : List (List Op)) (sched : List Nat)
    (hdone : allDone (interleave W D (initMachine nodes0 programs) sched) = true) :
    (interleave W D (initMachine nodes0 programs) sched).nodes =
        run W D nodes0
          ((interleave W D (initMachine nodes0 programs) sched).acquired.map Prod.snd) ∧
      (∀ (t : Nat) (p : List Op), programs[t]? = some p →
        callsOf t (interleave W D (initMachine nodes0 programs) sched).acquired = p) ∧
      (∀ e, e ∈ (interleave W D (initMachine nodes0 programs) sched).acquired →
        e.1 < programs.length) := by
  obtain ⟨h1, h2, h3, h4, h5⟩ :=
    LockInv_interleave sched _ (LockInv_initMachine W D nodes0 programs)
  have hall : ∀ (t : Nat) (th : Thread),
      (interleave W D (initMachine nodes0 programs) sched).threads[t]? = some th →
        th = Thread.idle [] := by
    intro t th hth
    have hmem : th ∈ (interleave W D (initMachine nodes0 programs) sched).threads :=
      List.mem_iff_getElem?.2 ⟨t, hth⟩
    have := List.all_eq_true.1 hdone th hmem
    simpa using this
  have hlock : (interleave W D (initMachine nodes0 programs) sched).lock = false := by
    cases hl : (interleave W D (initMachine nodes0 programs) sched).lock with
    | false => rfl
    | true =>
      obtain ⟨h, th, hh1, hh2, _, _⟩ := h5 hl
      rw [hall h th hh1] at hh2
      simp [isIdle] at hh2
  refine ⟨(h4 hlock).2, fun t p hp => ?_, h3⟩
  have hlt : t < (interleave W D (initMachine nodes0 programs) sched).threads.length := by
    rw [h1]; exact getElem?_lt hp
  have hth := List.getElem?_eq_getElem hlt
  have := h2 t _ p hth hp
  rw [hall t _ hth] at this
  simpa [remaining] using this

set_option maxRecDepth 100000 in
theorem C14_lock_order_linearization_witness :
    allDone (interleave 2 3 (initMachine (construct 2 3)
        [[Op.arrive 0 5, Op.depart 0], [Op.arrive 2 3]])
        [0, 1, 0, 0, 1, 0, 0, 1, 1, 0, 1, 0, 1, 1, 0, 0, 0, 0, 0, 0]) = true ∧
      (interleave 2 3 (initMachine (construct 2 3)
        [[Op.arrive 0 5, Op.depart 0], [Op.arrive 2 3]])
        [0, 1, 0, 0, 1, 0, 0, 1, 1, 0, 1, 0, 1, 1, 0, 0, 0, 0, 0, 0]).nodes =
        run 2 3 (construct 2 3)
          ((interleave 2 3 (initMachine (construct 2 3)
            [[Op.arrive 0 5, Op.depart 0], [Op.arrive 2 3]])
            [0, 1, 0, 0, 1, 0, 0, 1, 1, 0, 1, 0, 1, 1, 0, 0, 0, 0, 0, 0]).acquired.map
            Prod.snd) :=
  ⟨by decide,
    (C14_lock_order_linearization 2 3 (construct 2 3)
      [[Op.arrive 0 5, Op.depart 0], [Op.arrive 2 3]]
      [0, 1, 0, 0, 1, 0, 0, 1, 1, 0, 1, 0, 1, 1, 0, 0, 0, 0, 0, 0] (by decide)).1⟩

end mindicator
